import Mathlib

/-!
# Library catalogue manager (`main.cpp`)

A shallow embedding of the `Book`, `LibraryUser`, `Record` and `Library`
classes of `main.cpp`, followed by theorems about the catalogue operations
and the load/save text encoding.

Conventions of the embedding:

* `std::string` is a list of characters (`Str`);
* `std::vector<T>` is `List T`; `push_back` / `emplace_back` append at the end;
* a member function that mutates `*this` takes the object and returns the new one;
* a `Library` operation that prints a status line returns the new catalogue
  together with the text it writes to `cout`;
* a range-`for` loop that can `return` from inside is a recursive function
  over the list whose result says whether the loop returned early.
-/

/-- The type `std::string`, as a list of characters. -/
abbrev Str := List Char

/-! ## Standard-library algorithms -/

/-- The algorithm `std::remove_if(first, last, pred)`: the elements that do not satisfy
`pred` are moved to the front in their original order; the result is the
range `[first, it)` in front of the returned iterator `it`. -/
def remove_if {α : Type} (pred : α → Bool) : List α → List α
  | [] => []
  | x :: xs => if pred x then remove_if pred xs else x :: remove_if pred xs

/-- The algorithm `std::remove(first, last, value)`: `remove_if` with the test `== value`. -/
def remove {α : Type} [DecidableEq α] (value : α) (l : List α) : List α :=
  remove_if (fun x => decide (x = value)) l

/-! ## `class Book` -/

/-- Fields of `class Book` (lines 41-57). -/
structure Book where
  title : Str
  author : Str
  isbn : Str
  available : Bool
deriving DecidableEq, Repr

/-- Member `void setAvailable(bool status)`. -/
def Book.setAvailable (b : Book) (status : Bool) : Book :=
  { b with available := status }

/-- Member `string toFileString() const` of `Book` (line 54). -/
def Book.toFileString (b : Book) : Str :=
  b.title ++ ['|'] ++ b.author ++ ['|'] ++ b.isbn ++ ['|'] ++ (if b.available then ['1'] else ['0'])

/-! ## `class LibraryUser` -/

/-- Fields of `class LibraryUser` (lines 60-80). -/
structure LibraryUser where
  userID : Str
  name : Str
  borrowedBooks : List Str
deriving DecidableEq, Repr

/-- Member `void borrowBook(string isbn)`: `borrowedBooks.push_back(isbn)`. -/
def LibraryUser.borrowBook (u : LibraryUser) (isbn : Str) : LibraryUser :=
  { u with borrowedBooks := u.borrowedBooks ++ [isbn] }

/-- Member `void returnBook(string isbn)`: the erase-remove idiom on `borrowedBooks`. -/
def LibraryUser.returnBook (u : LibraryUser) (isbn : Str) : LibraryUser :=
  { u with borrowedBooks := remove isbn u.borrowedBooks }

/-- The loop `for (auto &b : borrowedBooks) books += b + ","` of `toFileString`. -/
def LibraryUser.joinBorrowed : List Str → Str
  | [] => []
  | b :: bs => (b ++ [',']) ++ LibraryUser.joinBorrowed bs

/-- Member `string toFileString() const` of `LibraryUser` (lines 75-79). -/
def LibraryUser.toFileString (u : LibraryUser) : Str :=
  u.userID ++ ['|'] ++ u.name ++ ['|'] ++ LibraryUser.joinBorrowed u.borrowedBooks

/-! ## `struct Record` and `class Library` -/

/-- The history entry `struct Record` (lines 83-87); `action` is "Borrowed" or "Returned". -/
structure Record where
  userID : Str
  isbn : Str
  action : String
deriving DecidableEq, Repr

/-- Data members of `class Library` (lines 91-93). -/
structure Library where
  books : List Book
  users : List LibraryUser
  history : List Record
deriving DecidableEq, Repr

namespace Library

/-- Status line printed by a successful `borrowBook`. -/
def msgBorrowed : String := "Book borrowed successfully!\n"
/-- Status line printed by a failed `borrowBook`. -/
def msgBorrowFailed : String := "Book not available or user not found.\n"
/-- Status line printed by a successful `returnBook`. -/
def msgReturned : String := "Book returned successfully!\n"
/-- Status line printed by a failed `returnBook`. -/
def msgReturnFailed : String := "Return failed.\n"
/-- Status line printed by a successful `deleteBook`. -/
def msgBookDeleted : String := "Book deleted successfully!\n"
/-- Status line printed by a failed `deleteBook`. -/
def msgBookNotFound : String := "Book not found!\n"
/-- Status line printed by a successful `deleteUser`. -/
def msgUserDeleted : String := "User deleted successfully!\n"
/-- Status line printed by a failed `deleteUser`. -/
def msgUserNotFound : String := "User not found!\n"

/-- Member `addBook` (line 132): `books.emplace_back(t, a, i)`, `available` defaulting to true. -/
def addBook (lib : Library) (t a i : Str) : Library :=
  { lib with books := lib.books ++ [⟨t, a, i, true⟩] }

/-- Member `registerUser` (line 133): `users.emplace_back(id, n)`. -/
def registerUser (lib : Library) (id n : Str) : Library :=
  { lib with users := lib.users ++ [⟨id, n, []⟩] }

/-- Inner loop of `borrowBook` (lines 139-146) over `users`: `some users1` when a user
with the given `userID` was found (the loop returns from `borrowBook` there, the user
having borrowed `isbn`), `none` when the loop ran to its end without a match. -/
def borrowUsers (isbn userID : Str) : List LibraryUser → Option (List LibraryUser)
  | [] => none
  | u :: us =>
    if u.userID = userID then some (u.borrowBook isbn :: us)
    else (borrowUsers isbn userID us).map (fun us1 => u :: us1)

/-- Outer loop of `borrowBook` (lines 136-148) over `books`, for the given `users`:
the books after the loop, and `some users1` when the function returned from the
inner loop. A book that matches and is available is made unavailable before the
users are searched, and the outer loop goes on when no user is found. -/
def borrowLoop (isbn userID : Str) (users : List LibraryUser) :
    List Book → List Book × Option (List LibraryUser)
  | [] => ([], none)
  | b :: bs =>
    if b.isbn = isbn ∧ b.available = true then
      match borrowUsers isbn userID users with
      | some users1 => (b.setAvailable false :: bs, some users1)
      | none =>
        let r := borrowLoop isbn userID users bs
        (b.setAvailable false :: r.1, r.2)
    else
      let r := borrowLoop isbn userID users bs
      (b :: r.1, r.2)

/-- Member `borrowBook` (lines 135-150). -/
def borrowBook (lib : Library) (isbn userID : Str) : Library × String :=
  match borrowLoop isbn userID lib.users lib.books with
  | (books1, some users1) =>
    ({ books := books1, users := users1,
       history := lib.history ++ [⟨userID, isbn, "Borrowed"⟩] }, msgBorrowed)
  | (books1, none) => ({ lib with books := books1 }, msgBorrowFailed)

/-- Inner loop of `returnBook` (lines 156-163) over `books`: `some books1` when a book
with the given ISBN was found (made available; the function returns there), `none`
when the loop ran to its end. -/
def returnBooks (isbn : Str) : List Book → Option (List Book)
  | [] => none
  | b :: bs =>
    if b.isbn = isbn then some (b.setAvailable true :: bs)
    else (returnBooks isbn bs).map (fun bs1 => b :: bs1)

/-- Outer loop of `returnBook` (lines 153-165) over `users`, for the given `books`:
the users after the loop, and `some books1` when the function returned from the
inner loop. A matching user has `isbn` removed before the books are searched, and
the outer loop goes on when no book is found. -/
def returnLoop (isbn userID : Str) (books : List Book) :
    List LibraryUser → List LibraryUser × Option (List Book)
  | [] => ([], none)
  | u :: us =>
    if u.userID = userID then
      match returnBooks isbn books with
      | some books1 => (u.returnBook isbn :: us, some books1)
      | none =>
        let r := returnLoop isbn userID books us
        (u.returnBook isbn :: r.1, r.2)
    else
      let r := returnLoop isbn userID books us
      (u :: r.1, r.2)

/-- Member `returnBook` (lines 152-167). -/
def returnBook (lib : Library) (isbn userID : Str) : Library × String :=
  match returnLoop isbn userID lib.books lib.users with
  | (users1, some books1) =>
    ({ books := books1, users := users1,
       history := lib.history ++ [⟨userID, isbn, "Returned"⟩] }, msgReturned)
  | (users1, none) => ({ lib with users := users1 }, msgReturnFailed)

/-- Member `deleteBook` (lines 211-220): `it != books.end()` holds when the range kept
by `remove_if` is shorter than the vector, and `erase(it, end)` then keeps that range. -/
def deleteBook (lib : Library) (isbn : Str) : Library × String :=
  let kept := remove_if (fun b : Book => decide (b.isbn = isbn)) lib.books
  if kept.length ≠ lib.books.length then ({ lib with books := kept }, msgBookDeleted)
  else (lib, msgBookNotFound)

/-- Member `deleteUser` (lines 222-231). -/
def deleteUser (lib : Library) (userID : Str) : Library × String :=
  let kept := remove_if (fun u : LibraryUser => decide (u.userID = userID)) lib.users
  if kept.length ≠ lib.users.length then ({ lib with users := kept }, msgUserDeleted)
  else (lib, msgUserNotFound)

/-- The catalogue with no books, no users and no history (what the constructor builds
when neither data file exists). -/
def empty : Library := ⟨[], [], []⟩

end Library

/-! ## Persistence: `std::ifstream`, `std::getline` and the load/save members -/

/-- State of an input file stream: the characters not yet extracted and the `eofbit`
and `failbit` state flags. -/
structure IStream where
  rest : Str
  eofbit : Bool
  failbit : Bool
deriving DecidableEq, Repr

/-- The declaration `ifstream file("...")`: a stream on the content of the file, or a
stream with `failbit` set when the file does not exist (`none`). -/
def IStream.open : Option Str → IStream
  | some text => ⟨text, false, false⟩
  | none => ⟨[], false, true⟩

/-- Extraction loop of `std::getline`: characters are appended to the string until the
delimiter is met (it is extracted and discarded) or the end of the file is reached.
The result is the string, the characters left, and whether the end of file was hit. -/
def getlineScan (delim : Char) : Str → Str × Str × Bool
  | [] => ([], [], true)
  | c :: cs =>
    if c = delim then ([], cs, false)
    else
      let r := getlineScan delim cs
      (c :: r.1, r.2.1, r.2.2)

/-- The call `std::getline(is, str, delim)`, used as a condition: the stream afterwards and
`some str` when the stream converts to `true` (`failbit` clear), `none` otherwise.
The sentry fails and sets `failbit` when `eofbit` or `failbit` is already set; hitting
the end of file sets `eofbit`, and also `failbit` when no character was extracted. -/
def getline (is : IStream) (delim : Char) : IStream × Option Str :=
  if is.eofbit = true ∨ is.failbit = true then ({ is with failbit := true }, none)
  else
    match getlineScan delim is.rest with
    | (str, rest, false) => (⟨rest, false, false⟩, some str)
    | (str, rest, true) =>
      if str = [] then (⟨rest, true, true⟩, none) else (⟨rest, true, false⟩, some str)

/-- The member `s.find(c)` of `std::string`: the index of the first `c`, `none` for `npos`. -/
def find (c : Char) : Str → Option Nat
  | [] => none
  | x :: xs => if x = c then some 0 else (find c xs).map (fun n => n + 1)

namespace Library

/-- The `while` loop of `loadBooks` (lines 98-100); `fuel` bounds the number of
iterations (every iteration extracts at least one character). -/
def loadBooksLoop : Nat → IStream → List Book → List Book
  | 0, _, books => books
  | fuel + 1, file, books =>
    match getline file '|' with
    | (file1, some title) =>
      match getline file1 '|' with
      | (file2, some author) =>
        match getline file2 '|' with
        | (file3, some isbn) =>
          match getline file3 '\n' with
          | (file4, some status) =>
            loadBooksLoop fuel file4 (books ++ [⟨title, author, isbn, decide (status = ['1'])⟩])
          | (_, none) => books
        | (_, none) => books
      | (_, none) => books
    | (_, none) => books

/-- Member `loadBooks` (lines 95-101), reading the given content of `books.txt`
(`none` when the file does not exist). -/
def loadBooks (lib : Library) (booksFile : Option Str) : Library :=
  { lib with books :=
      loadBooksLoop ((IStream.open booksFile).rest.length + 1) (IStream.open booksFile) lib.books }

/-- The inner `while` loop of `loadUsers` (lines 109-113): while `borrowed` has a comma,
the text in front of it is borrowed when non-empty, and is erased with the comma.
`fuel` bounds the number of iterations (every iteration erases at least one character). -/
def borrowedLoop : Nat → Str → LibraryUser → LibraryUser
  | 0, _, user => user
  | fuel + 1, borrowed, user =>
    match find ',' borrowed with
    | some pos =>
      let book := borrowed.take pos
      borrowedLoop fuel (borrowed.drop (pos + 1))
        (if book ≠ [] then user.borrowBook book else user)
    | none => user

/-- The outer `while` loop of `loadUsers` (lines 106-115). -/
def loadUsersLoop : Nat → IStream → List LibraryUser → List LibraryUser
  | 0, _, users => users
  | fuel + 1, file, users =>
    match getline file '|' with
    | (file1, some id) =>
      match getline file1 '|' with
      | (file2, some name) =>
        match getline file2 '\n' with
        | (file3, some borrowed) =>
          loadUsersLoop fuel file3
            (users ++ [borrowedLoop (borrowed.length + 1) borrowed ⟨id, name, []⟩])
        | (_, none) => users
      | (_, none) => users
    | (_, none) => users

/-- Member `loadUsers` (lines 103-116), reading the given content of `users.txt`. -/
def loadUsers (lib : Library) (usersFile : Option Str) : Library :=
  { lib with users :=
      loadUsersLoop ((IStream.open usersFile).rest.length + 1) (IStream.open usersFile) lib.users }

/-- The loop of `saveBooks` (line 120): one `toFileString` line per book. -/
def saveBooksLoop : List Book → Str
  | [] => []
  | b :: bs => b.toFileString ++ ['\n'] ++ saveBooksLoop bs

/-- Member `saveBooks` (lines 118-121): the text written to `books.txt`. -/
def saveBooks (lib : Library) : Str := saveBooksLoop lib.books

/-- The loop of `saveUsers` (line 125): one `toFileString` line per user. -/
def saveUsersLoop : List LibraryUser → Str
  | [] => []
  | u :: us => u.toFileString ++ ['\n'] ++ saveUsersLoop us

/-- Member `saveUsers` (lines 123-126): the text written to `users.txt`. -/
def saveUsers (lib : Library) : Str := saveUsersLoop lib.users

/-- The constructor `Library()` (line 129): `loadBooks(); loadUsers();` on empty vectors. -/
def load (booksFile usersFile : Option Str) : Library :=
  (empty.loadBooks booksFile).loadUsers usersFile

/-- The destructor (line 130): the contents written to `books.txt` and `users.txt`. -/
def save (lib : Library) : Str × Str := (lib.saveBooks, lib.saveUsers)

/-- A book whose title, author and ISBN contain no field separator. -/
def Encodable (b : Book) : Prop := '|' ∉ b.title ∧ '|' ∉ b.author ∧ '|' ∉ b.isbn

/-- A user whose userID and name contain no field separator and whose borrowed ISBNs
are non-empty and contain neither a comma nor a newline. -/
def EncodableUser (u : LibraryUser) : Prop :=
  '|' ∉ u.userID ∧ '|' ∉ u.name ∧
  ∀ s ∈ u.borrowedBooks, s ≠ [] ∧ ',' ∉ s ∧ '\n' ∉ s

end Library

/-! ## Sequences of catalogue operations -/

/-- One call of a public mutating member of `Library`, with its arguments (the
menu choices 1-4, 7 and 8 of `main`). -/
inductive Op where
  | addBook (t a i : Str)
  | registerUser (id n : Str)
  | borrowBook (isbn userID : Str)
  | returnBook (isbn userID : Str)
  | deleteBook (isbn : Str)
  | deleteUser (userID : Str)
deriving DecidableEq, Repr

namespace Library

/-- The catalogue after one operation. -/
def step (lib : Library) : Op → Library
  | .addBook t a i => lib.addBook t a i
  | .registerUser id n => lib.registerUser id n
  | .borrowBook isbn userID => (lib.borrowBook isbn userID).1
  | .returnBook isbn userID => (lib.returnBook isbn userID).1
  | .deleteBook isbn => (lib.deleteBook isbn).1
  | .deleteUser userID => (lib.deleteUser userID).1

/-- The catalogue after a sequence of operations, first to last. -/
def run (lib : Library) : List Op → Library
  | [] => lib
  | op :: ops => run (lib.step op) ops

/-- The availability invariant of section 3 of the specification: a book is available
exactly when its ISBN occurs in no user's `borrowedBooks`. -/
def availabilityInvariant (lib : Library) : Prop :=
  ∀ b ∈ lib.books, (b.available = true ↔ ∀ x ∈ lib.users, b.isbn ∉ x.borrowedBooks)

instance (lib : Library) : Decidable lib.availabilityInvariant := by
  unfold availabilityInvariant; infer_instance

/-- Disciplined use of one operation in a given catalogue:
* `addBook` with an ISBN that no book of the catalogue has;
* `borrowBook` for a registered userID;
* `returnBook i u` only when every user holding `i` has userID `u`;
* `deleteBook i` only when no user holds `i`;
* `deleteUser u` only when the users with userID `u` hold nothing.
`registerUser` is unrestricted. -/
def disciplined (lib : Library) : Op → Prop
  | .addBook _ _ i => ∀ b ∈ lib.books, b.isbn ≠ i
  | .registerUser _ _ => True
  | .borrowBook _ u => ∃ x ∈ lib.users, x.userID = u
  | .returnBook i u => ∀ x ∈ lib.users, i ∈ x.borrowedBooks → x.userID = u
  | .deleteBook i => ∀ x ∈ lib.users, i ∉ x.borrowedBooks
  | .deleteUser u => ∀ x ∈ lib.users, x.userID = u → x.borrowedBooks = []

instance (lib : Library) (op : Op) : Decidable (lib.disciplined op) := by
  cases op <;> (unfold disciplined; infer_instance)

/-- Every operation of the sequence is disciplined in the catalogue it is applied to. -/
def disciplinedRun (lib : Library) : List Op → Prop
  | [] => True
  | op :: ops => lib.disciplined op ∧ disciplinedRun (lib.step op) ops

instance decDisciplinedRun : (lib : Library) → (ops : List Op) → Decidable (lib.disciplinedRun ops)
  | _, [] => isTrue trivial
  | lib, op :: ops =>
    have := decDisciplinedRun (lib.step op) ops
    inferInstanceAs (Decidable (lib.disciplined op ∧ disciplinedRun (lib.step op) ops))

/-- The inductive invariant behind the availability invariant under disciplined use:
ISBNs are unique; the availability invariant; every held ISBN is the ISBN of a book;
no ISBN is held by two users; of two users with one userID only the first holds books. -/
def consistent (lib : Library) : Prop :=
  (lib.books.map Book.isbn).Nodup ∧
  lib.availabilityInvariant ∧
  (∀ x ∈ lib.users, ∀ i ∈ x.borrowedBooks, ∃ b ∈ lib.books, b.isbn = i) ∧
  lib.users.Pairwise (fun x y => ∀ i ∈ x.borrowedBooks, i ∉ y.borrowedBooks) ∧
  lib.users.Pairwise (fun x y => x.userID = y.userID → y.borrowedBooks = [])

end Library

/-! ## Validation helpers (lines 21-38) -/

/-- The function `isdigit` of `<cctype>` ("C" locale): the decimal digits 0 to 9. -/
def isdigit (c : Char) : Bool := decide ('0' ≤ c ∧ c ≤ '9')

/-- The function `isalpha` of `<cctype>` ("C" locale): the letters A-Z and a-z. -/
def isalpha (c : Char) : Bool := decide (('A' ≤ c ∧ c ≤ 'Z') ∨ ('a' ≤ c ∧ c ≤ 'z'))

/-- The function `isspace` of `<cctype>` ("C" locale): space, tab, newline, vertical tab,
form feed and carriage return (codes 32 and 9 to 13). -/
def isspace (c : Char) : Bool := decide (c = ' ' ∨ (9 ≤ c.toNat ∧ c.toNat ≤ 13))

/-- The apostrophe character (code 39). -/
def apostrophe : Char := Char.ofNat 39

/-- The loop of `isValidISBN` (lines 24-27), from the given value of `hasDigit`:
`none` when the loop returns `false` from inside, `some hasDigit` at its end. -/
def isValidISBNLoop : Str → Bool → Option Bool
  | [], hasDigit => some hasDigit
  | c :: cs, hasDigit =>
    if (!isdigit c && c != '-') = true then none
    else isValidISBNLoop cs (if isdigit c = true then true else hasDigit)

/-- The function `isValidISBN` (lines 21-29). -/
def isValidISBN (isbn : Str) : Bool :=
  if isbn = [] then false
  else
    match isValidISBNLoop isbn false with
    | none => false
    | some hasDigit => hasDigit

/-- The loop of `isValidName` (lines 33-36): `false` when the loop returns `false` from
inside, `true` when it runs to its end. -/
def isValidNameLoop : Str → Bool
  | [] => true
  | c :: cs =>
    if (!isalpha c && !isspace c && c != '.' && c != '&' && c != '-' && c != apostrophe) = true
    then false
    else isValidNameLoop cs

/-- The function `isValidName` (lines 31-38). -/
def isValidName (name : Str) : Bool :=
  if name = [] then false else isValidNameLoop name

/-! ## Records and tokens of the users file -/

namespace Library

/-- The records read by the condition of the `while` loop of `loadUsers` (line 106):
the strings `id`, `name` and `borrowed` of the successive iterations. -/
def userRecords : Nat → IStream → List (Str × Str × Str)
  | 0, _ => []
  | fuel + 1, file =>
    match getline file '|' with
    | (file1, some id) =>
      match getline file1 '|' with
      | (file2, some name) =>
        match getline file2 '\n' with
        | (file3, some borrowed) => (id, name, borrowed) :: userRecords fuel file3
        | (_, none) => []
      | (_, none) => []
    | (_, none) => []

/-- Specification side of the decoding of the third field (section 4.1, `decodeUser`):
the comma-terminated tokens of the text that follows the token `cur` begun so far,
in order; the text after the last comma is not a token. -/
def specTokensFrom : Str → Str → List Str
  | [], _ => []
  | c :: cs, cur =>
    if c = ',' then cur :: specTokensFrom cs [] else specTokensFrom cs (cur ++ [c])

/-- Specification side: the comma-terminated tokens of a field. -/
def specCommaTokens (field : Str) : List Str := specTokensFrom field []

/-- Specification side: the non-empty comma-terminated tokens of a field, in order. -/
def specBorrowed (field : Str) : List Str :=
  (specCommaTokens field).filter (fun tok => decide (tok ≠ []))

end Library

/-! ## Theorems -/

/-- A list with an element satisfying `p` splits at the first such element. -/
theorem exists_first_split {α : Type} (p : α → Prop) [DecidablePred p] (l : List α)
    (h : ∃ x ∈ l, p x) :
    ∃ pre x post, l = pre ++ x :: post ∧ (∀ y ∈ pre, ¬ p y) ∧ p x := by
  induction l with
  | nil => obtain ⟨x, hx, _⟩ := h; cases hx
  | cons a l ih =>
    by_cases ha : p a
    · exact ⟨[], a, l, rfl, by simp, ha⟩
    · have h2 : ∃ x ∈ l, p x := by
        obtain ⟨x, hx, hpx⟩ := h
        rcases List.mem_cons.mp hx with rfl | hx
        · exact absurd hpx ha
        · exact ⟨x, hx, hpx⟩
      obtain ⟨pre, x, post, hl, hpre, hx⟩ := ih h2
      refine ⟨a :: pre, x, post, by simp [hl], ?_, hx⟩
      intro y hy
      rcases List.mem_cons.mp hy with rfl | hy
      · exact ha
      · exact hpre y hy

/-- The algorithm `remove_if` keeps exactly the elements failing the test, in order. -/
theorem remove_if_eq_filter {α : Type} (pred : α → Bool) (l : List α) :
    remove_if pred l = l.filter (fun x => !pred x) := by
  induction l with
  | nil => rfl
  | cons a l ih =>
    by_cases h : pred a = true
    · simp [remove_if, h, ih]
    · simp [remove_if, h, ih]

namespace Library

theorem borrowUsers_split (i u : Str) (upre : List LibraryUser) (usr : LibraryUser)
    (upost : List LibraryUser) (hpre : ∀ x ∈ upre, x.userID ≠ u) (husr : usr.userID = u) :
    borrowUsers i u (upre ++ usr :: upost) = some (upre ++ usr.borrowBook i :: upost) := by
  induction upre with
  | nil => simp [borrowUsers, husr]
  | cons a upre ih =>
    have ha : a.userID ≠ u := hpre a (List.mem_cons_self _ _)
    have ih2 := ih (fun x hx => hpre x (List.mem_cons_of_mem _ hx))
    simp [borrowUsers, ha, ih2]

theorem borrowUsers_none (i u : Str) (users : List LibraryUser)
    (h : ∀ x ∈ users, x.userID ≠ u) : borrowUsers i u users = none := by
  induction users with
  | nil => rfl
  | cons a l ih =>
    have ha : a.userID ≠ u := h a (List.mem_cons_self _ _)
    simp [borrowUsers, ha, ih (fun x hx => h x (List.mem_cons_of_mem _ hx))]

theorem borrowLoop_split (i u : Str) (users users1 : List LibraryUser)
    (hus : borrowUsers i u users = some users1)
    (pre : List Book) (b : Book) (post : List Book)
    (hpre : ∀ x ∈ pre, ¬ (x.isbn = i ∧ x.available = true))
    (hb : b.isbn = i ∧ b.available = true) :
    borrowLoop i u users (pre ++ b :: post)
      = (pre ++ b.setAvailable false :: post, some users1) := by
  induction pre with
  | nil => simp [borrowLoop, hb, hus]
  | cons a pre ih =>
    have ha : ¬ (a.isbn = i ∧ a.available = true) := hpre a (List.mem_cons_self _ _)
    have ih2 := ih (fun x hx => hpre x (List.mem_cons_of_mem _ hx))
    simp only [List.cons_append, borrowLoop, ha, if_false, List.append_eq, ih2]

theorem borrowLoop_no_available (i u : Str) (users : List LibraryUser) (books : List Book)
    (h : ∀ b ∈ books, ¬ (b.isbn = i ∧ b.available = true)) :
    borrowLoop i u users books = (books, none) := by
  induction books with
  | nil => rfl
  | cons a l ih =>
    have ha : ¬ (a.isbn = i ∧ a.available = true) := h a (List.mem_cons_self _ _)
    simp only [borrowLoop, ha, if_false, ih (fun x hx => h x (List.mem_cons_of_mem _ hx))]

end Library

/-- Claim C1. When some book has ISBN `i` and is available and some user has userID `u`,
`borrowBook i u` prints the success line; the first available book with ISBN `i` becomes
unavailable, `i` is appended to the borrowed list of the first user with userID `u`,
the entry `{u, i, Borrowed}` is appended to the history, and nothing else changes. -/
theorem C1_borrowBook_success (lib : Library) (i u : Str)
    (hb : ∃ b ∈ lib.books, b.isbn = i ∧ b.available = true)
    (hu : ∃ x ∈ lib.users, x.userID = u) :
    ∃ pre b post upre usr upost,
      lib.books = pre ++ b :: post ∧
      (∀ x ∈ pre, ¬ (x.isbn = i ∧ x.available = true)) ∧
      b.isbn = i ∧ b.available = true ∧
      lib.users = upre ++ usr :: upost ∧
      (∀ x ∈ upre, x.userID ≠ u) ∧ usr.userID = u ∧
      lib.borrowBook i u =
        ({ books := pre ++ { b with available := false } :: post,
           users := upre ++ { usr with borrowedBooks := usr.borrowedBooks ++ [i] } :: upost,
           history := lib.history ++ [⟨u, i, "Borrowed"⟩] },
         Library.msgBorrowed) := by
  obtain ⟨pre, b, post, hbooks, hpre, hbi, hba⟩ :=
    exists_first_split (fun b : Book => b.isbn = i ∧ b.available = true) lib.books hb
  obtain ⟨upre, usr, upost, husers, hupre, husr⟩ :=
    exists_first_split (fun x : LibraryUser => x.userID = u) lib.users hu
  refine ⟨pre, b, post, upre, usr, upost, hbooks, hpre, hbi, hba, husers, hupre, husr, ?_⟩
  have h1 := Library.borrowUsers_split i u upre usr upost hupre husr
  have h2 := Library.borrowLoop_split i u (upre ++ usr :: upost) _ h1 pre b post hpre ⟨hbi, hba⟩
  simp only [Library.borrowBook, hbooks, husers, h2]
  rfl

/-- Witness for C1: the example of the specification (Dune, user U1). -/
theorem C1_borrowBook_success_witness :
    ∃ pre b post upre usr upost,
      (Library.mk [⟨"Dune".toList, "Frank Herbert".toList, "978-0-441-0".toList, true⟩]
        [⟨"U1".toList, "Alice".toList, []⟩] []).books = pre ++ b :: post ∧
      (∀ x ∈ pre, ¬ (x.isbn = "978-0-441-0".toList ∧ x.available = true)) ∧
      b.isbn = "978-0-441-0".toList ∧ b.available = true ∧
      (Library.mk [⟨"Dune".toList, "Frank Herbert".toList, "978-0-441-0".toList, true⟩]
        [⟨"U1".toList, "Alice".toList, []⟩] []).users = upre ++ usr :: upost ∧
      (∀ x ∈ upre, x.userID ≠ "U1".toList) ∧ usr.userID = "U1".toList ∧
      (Library.mk [⟨"Dune".toList, "Frank Herbert".toList, "978-0-441-0".toList, true⟩]
        [⟨"U1".toList, "Alice".toList, []⟩] []).borrowBook "978-0-441-0".toList "U1".toList =
        ({ books := pre ++ { b with available := false } :: post,
           users := upre ++ { usr with borrowedBooks := usr.borrowedBooks ++ ["978-0-441-0".toList] } :: upost,
           history := [] ++ [⟨"U1".toList, "978-0-441-0".toList, "Borrowed"⟩] },
         Library.msgBorrowed) :=
  C1_borrowBook_success
    (Library.mk [⟨"Dune".toList, "Frank Herbert".toList, "978-0-441-0".toList, true⟩]
        [⟨"U1".toList, "Alice".toList, []⟩] [])
    "978-0-441-0".toList "U1".toList
    ⟨_, List.mem_cons_self _ _, rfl, rfl⟩ ⟨_, List.mem_cons_self _ _, rfl⟩

/-- Claim C3. When no book with ISBN `i` is available, `borrowBook i u` prints the
failure line and leaves books, users and history exactly as they were. -/
theorem C3_borrowBook_unavailable (lib : Library) (i u : Str)
    (h : ∀ b ∈ lib.books, b.isbn = i → b.available = false) :
    lib.borrowBook i u = (lib, Library.msgBorrowFailed) := by
  have h2 : ∀ b ∈ lib.books, ¬ (b.isbn = i ∧ b.available = true) := by
    intro b hb hba
    have := h b hb hba.1
    rw [hba.2] at this
    cases this
  simp only [Library.borrowBook, Library.borrowLoop_no_available i u lib.users lib.books h2]

/-- Witness for C3: the only copy of the ISBN is already borrowed. -/
theorem C3_borrowBook_unavailable_witness :
    (Library.mk [⟨['D'], ['F'], ['9'], false⟩] [⟨['U'], ['A'], [['9']]⟩]
        [⟨['U'], ['9'], "Borrowed"⟩]).borrowBook ['9'] ['U']
      = (Library.mk [⟨['D'], ['F'], ['9'], false⟩] [⟨['U'], ['A'], [['9']]⟩]
          [⟨['U'], ['9'], "Borrowed"⟩], Library.msgBorrowFailed) :=
  C3_borrowBook_unavailable
    (Library.mk [⟨['D'], ['F'], ['9'], false⟩] [⟨['U'], ['A'], [['9']]⟩]
        [⟨['U'], ['9'], "Borrowed"⟩]) ['9'] ['U'] (by decide)

namespace Library

theorem returnBooks_split (i : Str) (pre : List Book) (b : Book) (post : List Book)
    (hpre : ∀ x ∈ pre, x.isbn ≠ i) (hb : b.isbn = i) :
    returnBooks i (pre ++ b :: post) = some (pre ++ b.setAvailable true :: post) := by
  induction pre with
  | nil => simp [returnBooks, hb]
  | cons a pre ih =>
    have ha : a.isbn ≠ i := hpre a (List.mem_cons_self _ _)
    have ih2 := ih (fun x hx => hpre x (List.mem_cons_of_mem _ hx))
    simp [returnBooks, ha, ih2]

theorem returnBooks_none (i : Str) (books : List Book) (h : ∀ b ∈ books, b.isbn ≠ i) :
    returnBooks i books = none := by
  induction books with
  | nil => rfl
  | cons a l ih =>
    have ha : a.isbn ≠ i := h a (List.mem_cons_self _ _)
    simp [returnBooks, ha, ih (fun x hx => h x (List.mem_cons_of_mem _ hx))]

theorem returnLoop_split (i u : Str) (books books1 : List Book)
    (hbs : returnBooks i books = some books1)
    (upre : List LibraryUser) (usr : LibraryUser) (upost : List LibraryUser)
    (hpre : ∀ x ∈ upre, x.userID ≠ u) (husr : usr.userID = u) :
    returnLoop i u books (upre ++ usr :: upost)
      = (upre ++ usr.returnBook i :: upost, some books1) := by
  induction upre with
  | nil => simp [returnLoop, husr, hbs]
  | cons a upre ih =>
    have ha : a.userID ≠ u := hpre a (List.mem_cons_self _ _)
    have ih2 := ih (fun x hx => hpre x (List.mem_cons_of_mem _ hx))
    simp only [List.cons_append, returnLoop, ha, if_false, List.append_eq, ih2]

theorem returnLoop_no_book (i u : Str) (books : List Book)
    (hbs : returnBooks i books = none) (users : List LibraryUser) :
    returnLoop i u books users
      = (users.map (fun x => if x.userID = u then x.returnBook i else x), none) := by
  induction users with
  | nil => rfl
  | cons a l ih =>
    by_cases ha : a.userID = u
    · simp only [returnLoop, ha, if_true, hbs, ih, List.map_cons]
    · simp only [returnLoop, ha, if_false, ih, List.map_cons]

theorem returnLoop_no_user (i u : Str) (books : List Book) (users : List LibraryUser)
    (h : ∀ x ∈ users, x.userID ≠ u) :
    returnLoop i u books users = (users, none) := by
  induction users with
  | nil => rfl
  | cons a l ih =>
    have ha : a.userID ≠ u := h a (List.mem_cons_self _ _)
    simp only [returnLoop, ha, if_false, ih (fun x hx => h x (List.mem_cons_of_mem _ hx))]

theorem map_return_no_user (i u : Str) (users : List LibraryUser)
    (h : ∀ x ∈ users, x.userID ≠ u) :
    users.map (fun x => if x.userID = u then x.returnBook i else x) = users := by
  induction users with
  | nil => rfl
  | cons a l ih =>
    have ha : a.userID ≠ u := h a (List.mem_cons_self _ _)
    simp only [List.map_cons, ha, if_false, ih (fun x hx => h x (List.mem_cons_of_mem _ hx))]

/-- What `returnBook` does when a user and a book match. -/
theorem returnBook_found (lib : Library) (i u : Str)
    (upre : List LibraryUser) (usr : LibraryUser) (upost : List LibraryUser)
    (pre : List Book) (b : Book) (post : List Book)
    (husers : lib.users = upre ++ usr :: upost)
    (hupre : ∀ x ∈ upre, x.userID ≠ u) (husr : usr.userID = u)
    (hbooks : lib.books = pre ++ b :: post)
    (hpre : ∀ x ∈ pre, x.isbn ≠ i) (hb : b.isbn = i) :
    lib.returnBook i u =
      ({ books := pre ++ b.setAvailable true :: post,
         users := upre ++ usr.returnBook i :: upost,
         history := lib.history ++ [⟨u, i, "Returned"⟩] }, msgReturned) := by
  have h1 := returnBooks_split i pre b post hpre hb
  have h2 := returnLoop_split i u (pre ++ b :: post) _ h1 upre usr upost hupre husr
  simp only [returnBook, hbooks, husers, h2]

/-- What `returnBook` does when no user or no book matches. -/
theorem returnBook_not_found (lib : Library) (i u : Str)
    (h : (∀ x ∈ lib.users, x.userID ≠ u) ∨ (∀ b ∈ lib.books, b.isbn ≠ i)) :
    lib.returnBook i u =
      ({ lib with users := lib.users.map (fun x => if x.userID = u then x.returnBook i else x) },
        msgReturnFailed) := by
  rcases h with h | h
  · simp only [returnBook, returnLoop_no_user i u lib.books lib.users h,
      map_return_no_user i u lib.users h]
  · simp only [returnBook, returnLoop_no_book i u lib.books (returnBooks_none i lib.books h)]

theorem remove_eq_filter (i : Str) (l : List Str) :
    remove i l = l.filter (fun s => decide (s ≠ i)) := by
  unfold remove
  rw [remove_if_eq_filter]
  congr 1
  funext s
  by_cases h : s = i <;> simp [h]

end Library

/-- Claim C2. The call `returnBook i u` prints the success line exactly when some user has
userID `u` and some book has ISBN `i`; on success every occurrence of `i` is removed from
the borrowed list of the first user with userID `u` (the rest keeping its order), the
first book with ISBN `i` is made available, `{u, i, Returned}` is appended to the history,
and nothing else changes. -/
theorem C2_returnBook_success (lib : Library) (i u : Str) :
    ((lib.returnBook i u).2 = Library.msgReturned ↔
      ((∃ x ∈ lib.users, x.userID = u) ∧ (∃ b ∈ lib.books, b.isbn = i))) ∧
    ((lib.returnBook i u).2 = Library.msgReturned →
      ∃ upre usr upost pre b post,
        lib.users = upre ++ usr :: upost ∧
        (∀ x ∈ upre, x.userID ≠ u) ∧ usr.userID = u ∧
        lib.books = pre ++ b :: post ∧
        (∀ x ∈ pre, x.isbn ≠ i) ∧ b.isbn = i ∧
        (lib.returnBook i u).1 =
          { books := pre ++ { b with available := true } :: post,
            users := upre ++
              { usr with borrowedBooks := usr.borrowedBooks.filter (fun s => decide (s ≠ i)) }
                :: upost,
            history := lib.history ++ [⟨u, i, "Returned"⟩] }) := by
  by_cases hub : (∃ x ∈ lib.users, x.userID = u) ∧ (∃ b ∈ lib.books, b.isbn = i)
  · obtain ⟨hu, hb⟩ := hub
    obtain ⟨upre, usr, upost, husers, hupre, husr⟩ :=
      exists_first_split (fun x : LibraryUser => x.userID = u) lib.users hu
    obtain ⟨pre, b, post, hbooks, hpre, hbi⟩ :=
      exists_first_split (fun b : Book => b.isbn = i) lib.books hb
    have key := Library.returnBook_found lib i u upre usr upost pre b post
      husers hupre husr hbooks hpre hbi
    refine ⟨⟨fun _ => ⟨hu, hb⟩, fun _ => by rw [key]⟩, fun _ => ?_⟩
    refine ⟨upre, usr, upost, pre, b, post, husers, hupre, husr, hbooks, hpre, hbi, ?_⟩
    rw [key]
    simp only [Book.setAvailable, LibraryUser.returnBook, Library.remove_eq_filter]
  · have hcase : (∀ x ∈ lib.users, x.userID ≠ u) ∨ (∀ b ∈ lib.books, b.isbn ≠ i) := by
      by_contra hcon
      push_neg at hcon
      exact hub hcon
    have key := Library.returnBook_not_found lib i u hcase
    have hne : Library.msgReturnFailed ≠ Library.msgReturned := by decide
    refine ⟨⟨fun h => ?_, fun h => absurd h hub⟩, fun h => ?_⟩
    · rw [key] at h; exact absurd h hne
    · rw [key] at h; exact absurd h hne

/-- Witness for C2: user U returns book 9, which was borrowed twice. -/
theorem C2_returnBook_success_witness :
    ((Library.mk [⟨['D'], ['F'], ['9'], false⟩] [⟨['U'], ['A'], [['9'], ['7'], ['9']]⟩] []).returnBook
        ['9'] ['U']
      = (Library.mk [⟨['D'], ['F'], ['9'], true⟩] [⟨['U'], ['A'], [['7']]⟩]
          [⟨['U'], ['9'], "Returned"⟩], Library.msgReturned)) ∧
    ((∃ x ∈ (Library.mk [⟨['D'], ['F'], ['9'], false⟩]
          [⟨['U'], ['A'], [['9'], ['7'], ['9']]⟩] []).users, x.userID = ['U']) ∧
      (∃ b ∈ (Library.mk [⟨['D'], ['F'], ['9'], false⟩]
          [⟨['U'], ['A'], [['9'], ['7'], ['9']]⟩] []).books, b.isbn = ['9'])) :=
  ⟨by decide,
   (C2_returnBook_success (Library.mk [⟨['D'], ['F'], ['9'], false⟩]
      [⟨['U'], ['A'], [['9'], ['7'], ['9']]⟩] []) ['9'] ['U']).1.mp (by decide)⟩

/-- Behaviour behind C4: a failed `returnBook` is not a no-op. After adding book 9,
registering U, borrowing 9 as U and deleting book 9 (all from the empty catalogue),
`returnBook 9 U` prints the failure line and yet removes 9 from the borrowed list of U.
With several users of one userID and no book of the ISBN, every one of them is stripped. -/
theorem C4_failing_input :
    Library.empty.run
        [Op.addBook ['D'] ['F'] ['9'], Op.registerUser ['U'] ['A'],
         Op.borrowBook ['9'] ['U'], Op.deleteBook ['9']]
      = Library.mk [] [⟨['U'], ['A'], [['9']]⟩] [⟨['U'], ['9'], "Borrowed"⟩] ∧
    (Library.mk [] [⟨['U'], ['A'], [['9']]⟩] [⟨['U'], ['9'], "Borrowed"⟩]).returnBook ['9'] ['U']
      = (Library.mk [] [⟨['U'], ['A'], []⟩] [⟨['U'], ['9'], "Borrowed"⟩],
          Library.msgReturnFailed) ∧
    ((Library.mk [] [⟨['U'], ['A'], [['9']]⟩] [⟨['U'], ['9'], "Borrowed"⟩]).returnBook
        ['9'] ['U']).1
      ≠ Library.mk [] [⟨['U'], ['A'], [['9']]⟩] [⟨['U'], ['9'], "Borrowed"⟩] ∧
    (Library.mk [⟨['D'], ['F'], ['8'], true⟩]
        [⟨['U'], ['A'], [['9'], ['7']]⟩, ⟨['V'], ['B'], [['9']]⟩, ⟨['U'], ['C'], [['9']]⟩]
        []).returnBook ['9'] ['U']
      = (Library.mk [⟨['D'], ['F'], ['8'], true⟩]
          [⟨['U'], ['A'], [['7']]⟩, ⟨['V'], ['B'], [['9']]⟩, ⟨['U'], ['C'], []⟩] [],
          Library.msgReturnFailed) := by
  decide

/-- Claim C5. In a catalogue with a user `u` and no book with ISBN `i`, after
`addBook t a i`, `borrowBook i u`, `returnBook i u`: both calls print their success line,
the books are the previous books followed by the added book with `available = true`,
`i` does not occur in the borrowed list of the first user with userID `u`, and the
history is the previous history followed by `{u, i, Borrowed}`, `{u, i, Returned}`. -/
theorem C5_add_borrow_return (lib : Library) (t a i u : Str)
    (hu : ∃ x ∈ lib.users, x.userID = u) (hb : ∀ b ∈ lib.books, b.isbn ≠ i) :
    (((lib.addBook t a i).borrowBook i u).2 = Library.msgBorrowed) ∧
    ((((lib.addBook t a i).borrowBook i u).1.returnBook i u).2 = Library.msgReturned) ∧
    ((((lib.addBook t a i).borrowBook i u).1.returnBook i u).1.books
      = lib.books ++ [⟨t, a, i, true⟩]) ∧
    (∃ upre usr upost,
      (((lib.addBook t a i).borrowBook i u).1.returnBook i u).1.users = upre ++ usr :: upost ∧
      (∀ x ∈ upre, x.userID ≠ u) ∧ usr.userID = u ∧ i ∉ usr.borrowedBooks) ∧
    ((((lib.addBook t a i).borrowBook i u).1.returnBook i u).1.history
      = lib.history ++ [⟨u, i, "Borrowed"⟩, ⟨u, i, "Returned"⟩]) := by
  obtain ⟨upre, usr, upost, husers, hupre, husr⟩ :=
    exists_first_split (fun x : LibraryUser => x.userID = u) lib.users hu
  have hpre : ∀ x ∈ lib.books, ¬ (x.isbn = i ∧ x.available = true) :=
    fun x hx hxi => hb x hx hxi.1
  have h1 := Library.borrowUsers_split i u upre usr upost hupre husr
  have h2 := Library.borrowLoop_split i u (upre ++ usr :: upost) _ h1 lib.books
    ⟨t, a, i, true⟩ [] hpre ⟨rfl, rfl⟩
  have hborrow : (lib.addBook t a i).borrowBook i u =
      ({ books := lib.books ++ [⟨t, a, i, false⟩],
         users := upre ++ usr.borrowBook i :: upost,
         history := lib.history ++ [⟨u, i, "Borrowed"⟩] }, Library.msgBorrowed) := by
    simp only [Library.borrowBook, Library.addBook, husers, h2]
    rfl
  have hreturn := Library.returnBook_found
    { books := lib.books ++ [⟨t, a, i, false⟩],
      users := upre ++ usr.borrowBook i :: upost,
      history := lib.history ++ [⟨u, i, "Borrowed"⟩] } i u
    upre (usr.borrowBook i) upost lib.books ⟨t, a, i, false⟩ [] rfl hupre husr rfl hb rfl
  rw [hborrow]
  simp only [hreturn]
  refine ⟨trivial, trivial, rfl, ?_, by simp⟩
  refine ⟨upre, (usr.borrowBook i).returnBook i, upost, rfl, hupre, husr, ?_⟩
  simp [LibraryUser.returnBook, LibraryUser.borrowBook, Library.remove_eq_filter]

/-- Witness for C5: the catalogue holds user U and book 8; book 9 is added, borrowed by U
and returned by U. -/
theorem C5_add_borrow_return_witness :
    ((((Library.mk [⟨['D'], ['F'], ['8'], true⟩] [⟨['U'], ['A'], [['8']]⟩] []).addBook
        ['T'] ['B'] ['9']).borrowBook ['9'] ['U']).1.returnBook ['9'] ['U']).1.history
      = [] ++ [⟨['U'], ['9'], "Borrowed"⟩, ⟨['U'], ['9'], "Returned"⟩] :=
  (C5_add_borrow_return (Library.mk [⟨['D'], ['F'], ['8'], true⟩] [⟨['U'], ['A'], [['8']]⟩] [])
    ['T'] ['B'] ['9'] ['U'] (by decide) (by decide)).2.2.2.2

namespace Library

theorem filter_length_eq_iff {α : Type} (p : α → Bool) (l : List α) :
    (l.filter p).length = l.length ↔ ∀ x ∈ l, p x = true := by
  constructor
  · intro h
    have := List.filter_eq_self.mp (List.Sublist.eq_of_length (List.filter_sublist l) h)
    exact this
  · intro h
    rw [List.filter_eq_self.mpr h]

end Library

/-- Claim C7. After `deleteBook i` the books are exactly the previous books whose ISBN
differs from `i`, in their previous order; the success line is printed exactly when some
book had ISBN `i`, the not-found line otherwise; users and history are unchanged; and
when no book has ISBN `i` the books are unchanged. -/
theorem C7_deleteBook (lib : Library) (i : Str) :
    (lib.deleteBook i).1.books = lib.books.filter (fun b => decide (b.isbn ≠ i)) ∧
    ((lib.deleteBook i).2 = Library.msgBookDeleted ↔ ∃ b ∈ lib.books, b.isbn = i) ∧
    (lib.deleteBook i).1.users = lib.users ∧
    (lib.deleteBook i).1.history = lib.history ∧
    ((∀ b ∈ lib.books, b.isbn ≠ i) →
      (lib.deleteBook i).2 = Library.msgBookNotFound ∧ (lib.deleteBook i).1 = lib) := by
  have hfil : remove_if (fun b : Book => decide (b.isbn = i)) lib.books
      = lib.books.filter (fun b => decide (b.isbn ≠ i)) := by
    rw [remove_if_eq_filter]
    congr 1
    funext b
    by_cases h : b.isbn = i <;> simp [h]
  have hlen := Library.filter_length_eq_iff (fun b : Book => decide (b.isbn ≠ i)) lib.books
  have hne : Library.msgBookNotFound ≠ Library.msgBookDeleted := by decide
  by_cases hall : ∀ b ∈ lib.books, b.isbn ≠ i
  · have h1 : (lib.books.filter (fun b => decide (b.isbn ≠ i))).length = lib.books.length :=
      hlen.mpr (fun x hx => by simpa using hall x hx)
    have h2 : lib.books.filter (fun b => decide (b.isbn ≠ i)) = lib.books :=
      List.filter_eq_self.mpr (fun x hx => by simpa using hall x hx)
    have key : lib.deleteBook i = (lib, Library.msgBookNotFound) := by
      simp only [Library.deleteBook, hfil, h1, ne_eq, not_true_eq_false, if_false]
    rw [key]
    refine ⟨h2.symm, ⟨fun h => absurd h hne, fun ⟨b, hb, hbi⟩ => absurd hbi (hall b hb)⟩,
      rfl, rfl, fun _ => ⟨rfl, rfl⟩⟩
  · have h1 : (lib.books.filter (fun b => decide (b.isbn ≠ i))).length ≠ lib.books.length := by
      intro hcon
      exact hall (fun x hx => by simpa using hlen.mp hcon x hx)
    have key : lib.deleteBook i =
        ({ lib with books := lib.books.filter (fun b => decide (b.isbn ≠ i)) },
          Library.msgBookDeleted) := by
      simp only [Library.deleteBook, hfil, h1, ne_eq, not_false_eq_true, if_true]
    rw [key]
    push_neg at hall
    exact ⟨rfl, ⟨fun _ => hall, fun _ => rfl⟩, rfl, rfl, fun h => absurd h (by push_neg; exact hall)⟩

/-- Claim C8. After `deleteUser u` the users are exactly the previous users whose userID
differs from `u`, in their previous order; the success line is printed exactly when some
user had userID `u`, the not-found line otherwise; books (with their availability flags)
and history are unchanged; and when no user has userID `u` the users are unchanged. -/
theorem C8_deleteUser (lib : Library) (u : Str) :
    (lib.deleteUser u).1.users = lib.users.filter (fun x => decide (x.userID ≠ u)) ∧
    ((lib.deleteUser u).2 = Library.msgUserDeleted ↔ ∃ x ∈ lib.users, x.userID = u) ∧
    (lib.deleteUser u).1.books = lib.books ∧
    (lib.deleteUser u).1.history = lib.history ∧
    ((∀ x ∈ lib.users, x.userID ≠ u) →
      (lib.deleteUser u).2 = Library.msgUserNotFound ∧ (lib.deleteUser u).1 = lib) := by
  have hfil : remove_if (fun x : LibraryUser => decide (x.userID = u)) lib.users
      = lib.users.filter (fun x => decide (x.userID ≠ u)) := by
    rw [remove_if_eq_filter]
    congr 1
    funext b
    by_cases h : b.userID = u <;> simp [h]
  have hlen :=
    Library.filter_length_eq_iff (fun x : LibraryUser => decide (x.userID ≠ u)) lib.users
  have hne : Library.msgUserNotFound ≠ Library.msgUserDeleted := by decide
  by_cases hall : ∀ x ∈ lib.users, x.userID ≠ u
  · have h1 : (lib.users.filter (fun x => decide (x.userID ≠ u))).length = lib.users.length :=
      hlen.mpr (fun x hx => by simpa using hall x hx)
    have h2 : lib.users.filter (fun x => decide (x.userID ≠ u)) = lib.users :=
      List.filter_eq_self.mpr (fun x hx => by simpa using hall x hx)
    have key : lib.deleteUser u = (lib, Library.msgUserNotFound) := by
      simp only [Library.deleteUser, hfil, h1, ne_eq, not_true_eq_false, if_false]
    rw [key]
    refine ⟨h2.symm, ⟨fun h => absurd h hne, fun ⟨b, hb, hbi⟩ => absurd hbi (hall b hb)⟩,
      rfl, rfl, fun _ => ⟨rfl, rfl⟩⟩
  · have h1 : (lib.users.filter (fun x => decide (x.userID ≠ u))).length ≠ lib.users.length := by
      intro hcon
      exact hall (fun x hx => by simpa using hlen.mp hcon x hx)
    have key : lib.deleteUser u =
        ({ lib with users := lib.users.filter (fun x => decide (x.userID ≠ u)) },
          Library.msgUserDeleted) := by
      simp only [Library.deleteUser, hfil, h1, ne_eq, not_false_eq_true, if_true]
    rw [key]
    push_neg at hall
    exact ⟨rfl, ⟨fun _ => hall, fun _ => rfl⟩, rfl, rfl, fun h => absurd h (by push_neg; exact hall)⟩

/-- Witness for C7: deleting ISBN 9 removes both copies and keeps book 8; deleting the
absent ISBN 7 reports not-found and changes nothing. -/
theorem C7_deleteBook_witness :
    ((Library.mk [⟨['D'], ['F'], ['9'], true⟩, ⟨['E'], ['G'], ['8'], false⟩,
        ⟨['D'], ['F'], ['9'], false⟩] [⟨['U'], ['A'], [['9'], ['8']]⟩] []).deleteBook ['9']).1.books
      = [⟨['E'], ['G'], ['8'], false⟩] ∧
    ((Library.mk [⟨['D'], ['F'], ['9'], true⟩] [⟨['U'], ['A'], [['7']]⟩] []).deleteBook ['7']).2
      = Library.msgBookNotFound ∧
    ((Library.mk [⟨['D'], ['F'], ['9'], true⟩] [⟨['U'], ['A'], [['7']]⟩] []).deleteBook ['7']).1
      = Library.mk [⟨['D'], ['F'], ['9'], true⟩] [⟨['U'], ['A'], [['7']]⟩] [] :=
  ⟨(C7_deleteBook (Library.mk [⟨['D'], ['F'], ['9'], true⟩, ⟨['E'], ['G'], ['8'], false⟩,
        ⟨['D'], ['F'], ['9'], false⟩] [⟨['U'], ['A'], [['9'], ['8']]⟩] []) ['9']).1,
   (C7_deleteBook (Library.mk [⟨['D'], ['F'], ['9'], true⟩] [⟨['U'], ['A'], [['7']]⟩] [])
      ['7']).2.2.2.2 (by decide)⟩

/-- Witness for C8: deleting userID U removes both users named U and keeps V, the
borrowed book staying unavailable; deleting the absent userID W changes nothing. -/
theorem C8_deleteUser_witness :
    ((Library.mk [⟨['D'], ['F'], ['9'], false⟩]
        [⟨['U'], ['A'], [['9']]⟩, ⟨['V'], ['B'], []⟩, ⟨['U'], ['C'], []⟩] []).deleteUser ['U']).1
      = Library.mk [⟨['D'], ['F'], ['9'], false⟩] [⟨['V'], ['B'], []⟩] [] ∧
    ((Library.mk [⟨['D'], ['F'], ['9'], false⟩] [⟨['U'], ['A'], [['9']]⟩] []).deleteUser ['W']).2
      = Library.msgUserNotFound ∧
    ((Library.mk [⟨['D'], ['F'], ['9'], false⟩] [⟨['U'], ['A'], [['9']]⟩] []).deleteUser ['W']).1
      = Library.mk [⟨['D'], ['F'], ['9'], false⟩] [⟨['U'], ['A'], [['9']]⟩] [] :=
  ⟨by decide,
   (C8_deleteUser (Library.mk [⟨['D'], ['F'], ['9'], false⟩] [⟨['U'], ['A'], [['9']]⟩] [])
      ['W']).2.2.2.2 (by decide)⟩

/-- Counterexample to C6 as stated: a user borrows a book and is then deleted; the book
stays unavailable although no user holds its ISBN. -/
theorem C6_counterexample :
    ¬ (Library.empty.run
        [Op.addBook ['D'] ['F'] ['9'], Op.registerUser ['U'] ['A'],
         Op.borrowBook ['9'] ['U'], Op.deleteUser ['U']]).availabilityInvariant := by
  decide

namespace Library

theorem deleteBook_state (lib : Library) (i : Str) :
    (lib.deleteBook i).1 = { lib with books := lib.books.filter (fun b => decide (b.isbn ≠ i)) } := by
  have hfil : remove_if (fun b : Book => decide (b.isbn = i)) lib.books
      = lib.books.filter (fun b => decide (b.isbn ≠ i)) := by
    rw [remove_if_eq_filter]
    congr 1
    funext b
    by_cases h : b.isbn = i <;> simp [h]
  unfold deleteBook
  simp only [hfil]
  split
  · rfl
  · rename_i h
    have h1 : (lib.books.filter (fun b => decide (b.isbn ≠ i))).length = lib.books.length := by
      by_contra hc; exact h hc
    have h2 := List.Sublist.eq_of_length (List.filter_sublist lib.books) h1
    simp only [h2]

theorem deleteUser_state (lib : Library) (u : Str) :
    (lib.deleteUser u).1 = { lib with users := lib.users.filter (fun x => decide (x.userID ≠ u)) } := by
  have hfil : remove_if (fun x : LibraryUser => decide (x.userID = u)) lib.users
      = lib.users.filter (fun x => decide (x.userID ≠ u)) := by
    rw [remove_if_eq_filter]
    congr 1
    funext b
    by_cases h : b.userID = u <;> simp [h]
  unfold deleteUser
  simp only [hfil]
  split
  · rfl
  · rename_i h
    have h1 : (lib.users.filter (fun x => decide (x.userID ≠ u))).length = lib.users.length := by
      by_contra hc; exact h hc
    have h2 := List.Sublist.eq_of_length (List.filter_sublist lib.users) h1
    simp only [h2]

theorem consistent_addBook (lib : Library) (t a i : Str) (hc : lib.consistent)
    (hg : ∀ b ∈ lib.books, b.isbn ≠ i) : (lib.addBook t a i).consistent := by
  obtain ⟨h1, h2, h3, h4, h5⟩ := hc
  refine ⟨?_, ?_, ?_, h4, h5⟩
  · simp only [addBook, List.map_append, List.map_cons, List.map_nil]
    rw [List.nodup_append]
    refine ⟨h1, List.nodup_singleton _, ?_⟩
    intro j hj hj2
    rw [List.mem_singleton] at hj2
    subst hj2
    obtain ⟨b, hb, hbi⟩ := List.mem_map.mp hj
    exact hg b hb hbi
  · intro b hb
    simp only [addBook, List.mem_append, List.mem_singleton] at hb
    rcases hb with hb | rfl
    · exact h2 b hb
    · constructor
      · intro _ x hx hi
        obtain ⟨b, hb, hbi⟩ := h3 x hx _ hi
        exact hg b hb hbi
      · intro _; rfl
  · intro x hx j hj
    obtain ⟨b, hb, hbi⟩ := h3 x hx j hj
    exact ⟨b, by simp [addBook, hb], hbi⟩

theorem consistent_registerUser (lib : Library) (id n : Str) (hc : lib.consistent) :
    (lib.registerUser id n).consistent := by
  obtain ⟨h1, h2, h3, h4, h5⟩ := hc
  refine ⟨h1, ?_, ?_, ?_, ?_⟩
  · intro b hb
    rw [h2 b hb]
    simp only [registerUser, List.mem_append, List.mem_singleton]
    constructor
    · intro h x hx
      rcases hx with hx | rfl
      · exact h x hx
      · simp
    · intro h x hx
      exact h x (Or.inl hx)
  · intro x hx j hj
    simp only [registerUser, List.mem_append, List.mem_singleton] at hx
    rcases hx with hx | rfl
    · exact h3 x hx j hj
    · cases hj
  · simp only [registerUser, List.pairwise_append, List.pairwise_singleton, List.mem_singleton]
    refine ⟨h4, trivial, ?_⟩
    intro a _ b hb
    subst hb
    simp
  · simp only [registerUser, List.pairwise_append, List.pairwise_singleton, List.mem_singleton]
    refine ⟨h5, trivial, ?_⟩
    intro a _ b hb _
    subst hb
    rfl

theorem consistent_deleteBook (lib : Library) (i : Str) (hc : lib.consistent)
    (hg : ∀ x ∈ lib.users, i ∉ x.borrowedBooks) : (lib.deleteBook i).1.consistent := by
  obtain ⟨h1, h2, h3, h4, h5⟩ := hc
  rw [deleteBook_state]
  refine ⟨?_, ?_, ?_, h4, h5⟩
  · exact List.Nodup.sublist (List.Sublist.map _ (List.filter_sublist lib.books)) h1
  · intro b hb
    exact h2 b (List.mem_filter.mp hb).1
  · intro x hx j hj
    obtain ⟨b, hb, hbi⟩ := h3 x hx j hj
    refine ⟨b, List.mem_filter.mpr ⟨hb, ?_⟩, hbi⟩
    have : b.isbn ≠ i := by
      intro hcon
      rw [hbi] at hcon
      subst hcon
      exact hg x hx hj
    simpa using this

theorem consistent_deleteUser (lib : Library) (u : Str) (hc : lib.consistent)
    (hg : ∀ x ∈ lib.users, x.userID = u → x.borrowedBooks = []) :
    (lib.deleteUser u).1.consistent := by
  obtain ⟨h1, h2, h3, h4, h5⟩ := hc
  rw [deleteUser_state]
  refine ⟨h1, ?_, ?_, ?_, ?_⟩
  · intro b hb
    rw [h2 b hb]
    constructor
    · intro h x hx
      exact h x (List.mem_filter.mp hx).1
    · intro h x hx
      by_cases hxu : x.userID = u
      · rw [hg x hx hxu]; simp
      · exact h x (List.mem_filter.mpr ⟨hx, by simpa using hxu⟩)
  · intro x hx j hj
    exact h3 x (List.mem_filter.mp hx).1 j hj
  · exact List.Pairwise.sublist (List.filter_sublist lib.users) h4
  · exact List.Pairwise.sublist (List.filter_sublist lib.users) h5

theorem borrowBook_found (lib : Library) (i u : Str)
    (upre : List LibraryUser) (usr : LibraryUser) (upost : List LibraryUser)
    (pre : List Book) (b : Book) (post : List Book)
    (husers : lib.users = upre ++ usr :: upost)
    (hupre : ∀ x ∈ upre, x.userID ≠ u) (husr : usr.userID = u)
    (hbooks : lib.books = pre ++ b :: post)
    (hpre : ∀ x ∈ pre, ¬ (x.isbn = i ∧ x.available = true))
    (hb : b.isbn = i ∧ b.available = true) :
    lib.borrowBook i u =
      ({ books := pre ++ b.setAvailable false :: post,
         users := upre ++ usr.borrowBook i :: upost,
         history := lib.history ++ [⟨u, i, "Borrowed"⟩] }, msgBorrowed) := by
  have h1 := borrowUsers_split i u upre usr upost hupre husr
  have h2 := borrowLoop_split i u (upre ++ usr :: upost) _ h1 pre b post hpre hb
  simp only [borrowBook, hbooks, husers, h2]

theorem isbn_ne_of_nodup (pre : List Book) (b : Book) (post : List Book)
    (h : ((pre ++ b :: post).map Book.isbn).Nodup) (x : Book) (hx : x ∈ pre ∨ x ∈ post) :
    x.isbn ≠ b.isbn := by
  simp only [List.map_append, List.map_cons] at h
  rw [List.nodup_append] at h
  obtain ⟨_, h2, h3⟩ := h
  rcases hx with hx | hx
  · intro hcon
    exact h3 (List.mem_map_of_mem Book.isbn hx) (by rw [hcon]; exact List.mem_cons_self _ _)
  · intro hcon
    have := (List.nodup_cons.mp h2).1
    exact this (by rw [← hcon]; exact List.mem_map_of_mem Book.isbn hx)

theorem consistent_borrowBook (lib : Library) (i u : Str) (hc : lib.consistent)
    (hg : ∃ x ∈ lib.users, x.userID = u) : (lib.borrowBook i u).1.consistent := by
  by_cases hav : ∃ b ∈ lib.books, b.isbn = i ∧ b.available = true
  · obtain ⟨pre, b, post, hbooks, hpre, hbi, hba⟩ :=
      exists_first_split (fun b : Book => b.isbn = i ∧ b.available = true) lib.books hav
    obtain ⟨upre, usr, upost, husers, hupre, husr⟩ :=
      exists_first_split (fun x : LibraryUser => x.userID = u) lib.users hg
    rw [borrowBook_found lib i u upre usr upost pre b post husers hupre husr hbooks hpre
      ⟨hbi, hba⟩]
    obtain ⟨h1, h2, h3, h4, h5⟩ := hc
    unfold availabilityInvariant at h2
    rw [hbooks] at h1 h2 h3
    rw [husers] at h2 h3 h4 h5
    have hne := isbn_ne_of_nodup pre b post h1
    have hfree : ∀ y ∈ upre ++ usr :: upost, i ∉ y.borrowedBooks := by
      have := (h2 b (by simp)).mp hba
      rwa [hbi] at this
    have hbook : ∀ j, (∃ bk ∈ pre ++ b :: post, bk.isbn = j) →
        ∃ bk ∈ pre ++ b.setAvailable false :: post, bk.isbn = j := by
      rintro j ⟨bk, hbk, hj⟩
      simp only [List.mem_append, List.mem_cons] at hbk
      rcases hbk with hbk | rfl | hbk
      · exact ⟨bk, by simp [hbk], hj⟩
      · exact ⟨bk.setAvailable false, by simp, hj⟩
      · exact ⟨bk, by simp [hbk], hj⟩
    refine ⟨?_, ?_, ?_, ?_, ?_⟩
    · simpa [Book.setAvailable] using h1
    · intro x hx
      simp only [List.mem_append, List.mem_cons] at hx
      have hold : ∀ x, (x ∈ pre ∨ x ∈ post) →
          (x.available = true ↔ ∀ y ∈ upre ++ usr.borrowBook i :: upost,
            x.isbn ∉ y.borrowedBooks) := by
        intro x hx
        have hxi : x.isbn ≠ i := hbi ▸ hne x hx
        rw [h2 x (by simp only [List.mem_append, List.mem_cons]; tauto)]
        simp only [List.mem_append, List.mem_cons, LibraryUser.borrowBook]
        constructor
        · intro h y hy
          rcases hy with hy | rfl | hy
          · exact h y (Or.inl hy)
          · have := h usr (Or.inr (Or.inl rfl))
            simp [this, hxi]
          · exact h y (Or.inr (Or.inr hy))
        · intro h y hy
          rcases hy with hy | rfl | hy
          · exact h y (Or.inl hy)
          · have := h _ (Or.inr (Or.inl rfl))
            simp only [List.mem_append, not_or] at this
            exact this.1
          · exact h y (Or.inr (Or.inr hy))
      rcases hx with hx | rfl | hx
      · exact hold x (Or.inl hx)
      · constructor
        · intro h; cases h
        · intro h
          have := h (usr.borrowBook i) (by simp)
          simp [Book.setAvailable, LibraryUser.borrowBook, hbi] at this
      · exact hold x (Or.inr hx)
    · intro y hy j hj
      apply hbook
      simp only [List.mem_append, List.mem_cons] at hy
      rcases hy with hy | rfl | hy
      · exact h3 y (by simp [hy]) j hj
      · simp only [LibraryUser.borrowBook, List.mem_append, List.mem_singleton] at hj
        rcases hj with hj | rfl
        · exact h3 usr (by simp) j hj
        · exact ⟨b, by simp, hbi⟩
      · exact h3 y (by simp [hy]) j hj
    · simp only [List.pairwise_append, List.pairwise_cons, List.mem_cons, forall_eq_or_imp]
        at h4 ⊢
      obtain ⟨p1, ⟨p2, p3⟩, p4⟩ := h4
      refine ⟨p1, ⟨?_, p3⟩, ?_⟩
      · intro c hc j hj
        simp only [LibraryUser.borrowBook, List.mem_append, List.mem_singleton] at hj
        rcases hj with hj | rfl
        · exact p2 c hc j hj
        · exact hfree c (by simp [hc])
      · intro a ha
        refine ⟨?_, (p4 a ha).2⟩
        intro j hj
        simp only [LibraryUser.borrowBook, List.mem_append, List.mem_singleton, not_or]
        refine ⟨(p4 a ha).1 j hj, ?_⟩
        rintro rfl
        exact hfree a (by simp [ha]) hj
    · simp only [List.pairwise_append, List.pairwise_cons, List.mem_cons, forall_eq_or_imp]
        at h5 ⊢
      obtain ⟨p1, ⟨p2, p3⟩, p4⟩ := h5
      refine ⟨p1, ⟨p2, p3⟩, ?_⟩
      intro a ha
      refine ⟨?_, (p4 a ha).2⟩
      intro hid
      exact absurd (hid.trans husr) (hupre a ha)
  · have h2 : ∀ b ∈ lib.books, ¬ (b.isbn = i ∧ b.available = true) := by
      intro b hb hba
      exact hav ⟨b, hb, hba⟩
    have : lib.borrowBook i u = (lib, msgBorrowFailed) := by
      simp only [borrowBook, borrowLoop_no_available i u lib.users lib.books h2]
    rw [this]
    exact hc

theorem filter_ne_of_not_mem (i : Str) (l : List Str) (h : i ∉ l) :
    l.filter (fun s => decide (s ≠ i)) = l := by
  apply List.filter_eq_self.mpr
  intro s hs
  have : s ≠ i := fun hcon => h (hcon ▸ hs)
  simpa using this

theorem consistent_returnBook (lib : Library) (i u : Str) (hc : lib.consistent)
    (hg : ∀ x ∈ lib.users, i ∈ x.borrowedBooks → x.userID = u) :
    (lib.returnBook i u).1.consistent := by
  by_cases hu : ∃ x ∈ lib.users, x.userID = u
  · by_cases hb : ∃ b ∈ lib.books, b.isbn = i
    · obtain ⟨upre, usr, upost, husers, hupre, husr⟩ :=
        exists_first_split (fun x : LibraryUser => x.userID = u) lib.users hu
      obtain ⟨pre, b, post, hbooks, hpre, hbi⟩ :=
        exists_first_split (fun b : Book => b.isbn = i) lib.books hb
      rw [returnBook_found lib i u upre usr upost pre b post husers hupre husr hbooks hpre hbi]
      obtain ⟨h1, h2, h3, h4, h5⟩ := hc
      unfold availabilityInvariant at h2
      rw [hbooks] at h1 h2 h3
      rw [husers] at h2 h3 h4 h5 hg
      have hne := isbn_ne_of_nodup pre b post h1
      have hret : (usr.returnBook i).borrowedBooks
          = usr.borrowedBooks.filter (fun s => decide (s ≠ i)) := by
        simp only [LibraryUser.returnBook, remove_eq_filter]
      have hbook : ∀ j, (∃ bk ∈ pre ++ b :: post, bk.isbn = j) →
          ∃ bk ∈ pre ++ b.setAvailable true :: post, bk.isbn = j := by
        rintro j ⟨bk, hbk, hj⟩
        simp only [List.mem_append, List.mem_cons] at hbk
        rcases hbk with hbk | rfl | hbk
        · exact ⟨bk, by simp [hbk], hj⟩
        · exact ⟨bk.setAvailable true, by simp, hj⟩
        · exact ⟨bk, by simp [hbk], hj⟩
      simp only [List.pairwise_append, List.pairwise_cons, List.mem_cons, forall_eq_or_imp]
        at h4 h5
      obtain ⟨p1, ⟨p2, p3⟩, p4⟩ := h4
      obtain ⟨q1, ⟨q2, q3⟩, q4⟩ := h5
      refine ⟨?_, ?_, ?_, ?_, ?_⟩
      · simpa [Book.setAvailable] using h1
      · intro x hx
        simp only [List.mem_append, List.mem_cons] at hx
        have hold : ∀ x, (x ∈ pre ∨ x ∈ post) →
            (x.available = true ↔ ∀ y ∈ upre ++ usr.returnBook i :: upost,
              x.isbn ∉ y.borrowedBooks) := by
          intro x hx
          have hxi : x.isbn ≠ i := hbi ▸ hne x hx
          rw [h2 x (by simp only [List.mem_append, List.mem_cons]; tauto)]
          simp only [List.mem_append, List.mem_cons]
          constructor
          · intro h y hy
            rcases hy with hy | rfl | hy
            · exact h y (Or.inl hy)
            · have := h usr (Or.inr (Or.inl rfl))
              rw [hret]
              intro hcon
              exact this (List.mem_filter.mp hcon).1
            · exact h y (Or.inr (Or.inr hy))
          · intro h y hy
            rcases hy with hy | rfl | hy
            · exact h y (Or.inl hy)
            · have := h _ (Or.inr (Or.inl rfl))
              rw [hret] at this
              intro hcon
              exact this (List.mem_filter.mpr ⟨hcon, by simpa using hxi⟩)
            · exact h y (Or.inr (Or.inr hy))
        rcases hx with hx | rfl | hx
        · exact hold x (Or.inl hx)
        · refine ⟨fun _ => ?_, fun _ => rfl⟩
          intro y hy
          simp only [List.mem_append, List.mem_cons] at hy
          have hgoal : i ∉ y.borrowedBooks := by
            rcases hy with hy | rfl | hy
            · intro hcon
              exact hupre y hy (hg y (by simp [hy]) hcon)
            · rw [hret]
              intro hcon
              simpa using (List.mem_filter.mp hcon).2
            · intro hcon
              have hid := hg y (by simp [hy]) hcon
              have := q2 y hy (husr.trans hid.symm)
              rw [this] at hcon
              cases hcon
          simpa [Book.setAvailable, hbi] using hgoal
        · exact hold x (Or.inr hx)
      · intro y hy j hj
        apply hbook
        simp only [List.mem_append, List.mem_cons] at hy
        rcases hy with hy | rfl | hy
        · exact h3 y (by simp [hy]) j hj
        · rw [hret] at hj
          exact h3 usr (by simp) j (List.mem_filter.mp hj).1
        · exact h3 y (by simp [hy]) j hj
      · simp only [List.pairwise_append, List.pairwise_cons, List.mem_cons, forall_eq_or_imp]
        refine ⟨p1, ⟨?_, p3⟩, ?_⟩
        · intro c hc j hj
          rw [hret] at hj
          exact p2 c hc j (List.mem_filter.mp hj).1
        · intro a ha
          refine ⟨?_, (p4 a ha).2⟩
          intro j hj hcon
          rw [hret] at hcon
          exact (p4 a ha).1 j hj (List.mem_filter.mp hcon).1
      · simp only [List.pairwise_append, List.pairwise_cons, List.mem_cons, forall_eq_or_imp]
        refine ⟨q1, ⟨q2, q3⟩, ?_⟩
        intro a ha
        refine ⟨?_, (q4 a ha).2⟩
        intro hid
        exact absurd (hid.trans husr) (hupre a ha)
    · have hnb : ∀ b ∈ lib.books, b.isbn ≠ i := fun b hbm hbi => hb ⟨b, hbm, hbi⟩
      rw [returnBook_not_found lib i u (Or.inr hnb)]
      have hfree : ∀ x ∈ lib.users, i ∉ x.borrowedBooks := by
        intro x hx hcon
        obtain ⟨bk, hbk, hj⟩ := hc.2.2.1 x hx i hcon
        exact hnb bk hbk hj
      have hsame : lib.users.map (fun x => if x.userID = u then x.returnBook i else x)
          = lib.users := by
        conv_rhs => rw [← List.map_id lib.users]
        apply List.map_congr_left
        intro x hx
        by_cases hxu : x.userID = u
        · simp only [hxu, if_true, id, LibraryUser.returnBook, remove_eq_filter,
            filter_ne_of_not_mem i x.borrowedBooks (hfree x hx)]
          cases x
          simp only at hxu
          simp only [hxu]
        · simp only [hxu, if_false, id]
      simp only [hsame]
      exact hc
  · have hnu : ∀ x ∈ lib.users, x.userID ≠ u := fun x hx hxu => hu ⟨x, hx, hxu⟩
    rw [returnBook_not_found lib i u (Or.inl hnu), map_return_no_user i u lib.users hnu]
    exact hc

theorem consistent_empty : empty.consistent := by
  refine ⟨List.nodup_nil, ?_, ?_, List.Pairwise.nil, List.Pairwise.nil⟩
  · intro b hb; cases hb
  · intro x hx; cases hx

theorem consistent_step (lib : Library) (op : Op) (hc : lib.consistent)
    (hg : lib.disciplined op) : (lib.step op).consistent := by
  cases op with
  | addBook t a i => exact consistent_addBook lib t a i hc hg
  | registerUser id n => exact consistent_registerUser lib id n hc
  | borrowBook i u => exact consistent_borrowBook lib i u hc hg
  | returnBook i u => exact consistent_returnBook lib i u hc hg
  | deleteBook i => exact consistent_deleteBook lib i hc hg
  | deleteUser u => exact consistent_deleteUser lib u hc hg

theorem consistent_run (ops : List Op) : ∀ (lib : Library), lib.consistent →
    lib.disciplinedRun ops → (lib.run ops).consistent := by
  induction ops with
  | nil => intro lib hc _; exact hc
  | cons op ops ih =>
    intro lib hc hd
    exact ih (lib.step op) (consistent_step lib op hc hd.1) hd.2

end Library

/-- Claim C6, amended. In every catalogue state reachable from the empty catalogue by a
sequence of operations used with discipline (`addBook` with an ISBN not in the catalogue,
`borrowBook` for a registered userID, `returnBook i u` only when every holder of `i` has
userID `u`, `deleteBook` of an ISBN nobody holds, `deleteUser` of users holding nothing,
`registerUser` freely), a book is available exactly when no user holds its ISBN. -/
theorem C6_availability_invariant (ops : List Op)
    (h : Library.empty.disciplinedRun ops) :
    ∀ b ∈ (Library.empty.run ops).books,
      (b.available = true ↔ ∀ x ∈ (Library.empty.run ops).users, b.isbn ∉ x.borrowedBooks) :=
  (Library.consistent_run ops Library.empty Library.consistent_empty h).2.1

/-- Witness for C6 (amended): a disciplined session using all six operations. -/
theorem C6_availability_invariant_witness :
    Library.empty.disciplinedRun
      [Op.addBook ['D'] ['F'] ['9'], Op.addBook ['E'] ['G'] ['8'],
       Op.registerUser ['U'] ['A'], Op.registerUser ['V'] ['B'],
       Op.borrowBook ['9'] ['U'], Op.borrowBook ['8'] ['V'], Op.returnBook ['8'] ['V'],
       Op.deleteBook ['8'], Op.deleteUser ['V']] ∧
    (Library.empty.run
      [Op.addBook ['D'] ['F'] ['9'], Op.addBook ['E'] ['G'] ['8'],
       Op.registerUser ['U'] ['A'], Op.registerUser ['V'] ['B'],
       Op.borrowBook ['9'] ['U'], Op.borrowBook ['8'] ['V'], Op.returnBook ['8'] ['V'],
       Op.deleteBook ['8'], Op.deleteUser ['V']]).availabilityInvariant :=
  ⟨by decide,
   C6_availability_invariant
    [Op.addBook ['D'] ['F'] ['9'], Op.addBook ['E'] ['G'] ['8'],
     Op.registerUser ['U'] ['A'], Op.registerUser ['V'] ['B'],
     Op.borrowBook ['9'] ['U'], Op.borrowBook ['8'] ['V'], Op.returnBook ['8'] ['V'],
     Op.deleteBook ['8'], Op.deleteUser ['V']] (by decide)⟩

/-! ### Persistence -/

theorem getlineScan_append (delim : Char) (tok rest : Str) (h : delim ∉ tok) :
    getlineScan delim (tok ++ delim :: rest) = (tok, rest, false) := by
  induction tok with
  | nil => simp [getlineScan]
  | cons c cs ih =>
    have hc : c ≠ delim := fun hcon => h (hcon ▸ List.mem_cons_self _ _)
    have hcs : delim ∉ cs := fun hcon => h (List.mem_cons_of_mem _ hcon)
    simp only [List.cons_append, getlineScan, hc, if_false, List.append_eq, ih hcs]

/-- Reading one delimited field from a good stream. -/
theorem getline_field (delim : Char) (tok rest : Str) (h : delim ∉ tok) :
    getline ⟨tok ++ delim :: rest, false, false⟩ delim = (⟨rest, false, false⟩, some tok) := by
  simp [getline, getlineScan_append delim tok rest h]

/-- Reading from a good stream at the end of the file fails. -/
theorem getline_nil (delim : Char) :
    getline ⟨[], false, false⟩ delim = (⟨[], true, true⟩, none) := by
  simp [getline, getlineScan]

theorem getlineScan_not_mem (delim : Char) (s : Str) : delim ∉ (getlineScan delim s).1 := by
  induction s with
  | nil => simp [getlineScan]
  | cons c cs ih =>
    by_cases hc : c = delim
    · simp [getlineScan, hc]
    · simp only [getlineScan, hc, if_false, List.mem_cons, not_or]
      exact ⟨fun hcon => hc hcon.symm, ih⟩

theorem getlineScan_subset (delim : Char) (s : Str) :
    ∀ c ∈ (getlineScan delim s).1, c ∈ s := by
  induction s with
  | nil => simp [getlineScan]
  | cons c cs ih =>
    by_cases hc : c = delim
    · simp [getlineScan, hc]
    · simp only [getlineScan, hc, if_false, List.mem_cons]
      intro x hx
      rcases hx with rfl | hx
      · exact Or.inl rfl
      · exact Or.inr (ih x hx)

/-- A string read by `getline` does not contain the delimiter. -/
theorem getline_some_not_mem (is is1 : IStream) (delim : Char) (str : Str)
    (h : getline is delim = (is1, some str)) : delim ∉ str := by
  unfold getline at h
  split at h
  · cases h
  · have hscan := getlineScan_not_mem delim is.rest
    split at h
    · rename_i heq
      rw [heq] at hscan
      simp only [Prod.mk.injEq, Option.some.injEq] at h
      rw [← h.2]; exact hscan
    · rename_i heq
      rw [heq] at hscan
      split at h
      · cases h
      · simp only [Prod.mk.injEq, Option.some.injEq] at h
        rw [← h.2]; exact hscan

namespace Library

theorem toFileString_line (b : Book) (rest : Str) :
    b.toFileString ++ ['\n'] ++ rest
      = b.title ++ '|' :: (b.author ++ '|' :: (b.isbn ++ '|' ::
          ((if b.available then ['1'] else ['0']) ++ '\n' :: rest))) := by
  simp [Book.toFileString, List.append_assoc]

theorem loadBooksLoop_save (bs : List Book) :
    ∀ (fuel : Nat) (acc : List Book), bs.length < fuel → (∀ b ∈ bs, Encodable b) →
      loadBooksLoop fuel ⟨saveBooksLoop bs, false, false⟩ acc = acc ++ bs := by
  induction bs with
  | nil =>
    intro fuel acc hf _
    cases fuel with
    | zero => cases hf
    | succ n => simp [loadBooksLoop, saveBooksLoop, getline_nil]
  | cons b bs ih =>
    intro fuel acc hf henc
    cases fuel with
    | zero => cases hf
    | succ n =>
      obtain ⟨ht, ha, hi⟩ := henc b (List.mem_cons_self _ _)
      have hflag : '\n' ∉ (if b.available then ['1'] else ['0']) := by
        cases b.available <;> decide
      have hstatus : decide ((if b.available then ['1'] else ['0']) = ['1']) = b.available := by
        cases b.available <;> decide
      have hrec := ih n (acc ++ [b]) (Nat.lt_of_succ_lt_succ hf)
        (fun x hx => henc x (List.mem_cons_of_mem _ hx))
      have hsave : saveBooksLoop (b :: bs)
          = b.title ++ '|' :: (b.author ++ '|' :: (b.isbn ++ '|' ::
              ((if b.available then ['1'] else ['0']) ++ '\n' :: saveBooksLoop bs))) :=
        toFileString_line b (saveBooksLoop bs)
      rw [hsave]
      simp only [loadBooksLoop,
        getline_field '|' _ _ ht, getline_field '|' _ _ ha, getline_field '|' _ _ hi,
        getline_field '\n' _ _ hflag, hstatus, hrec, List.append_assoc, List.singleton_append]

theorem length_le_saveBooksLoop (bs : List Book) : bs.length ≤ (saveBooksLoop bs).length := by
  induction bs with
  | nil => simp
  | cons b bs ih =>
    simp only [saveBooksLoop, List.length_cons, List.length_append, List.length_nil]
    omega

theorem find_append (c : Char) (tok rest : Str) (h : c ∉ tok) :
    find c (tok ++ c :: rest) = some tok.length := by
  induction tok with
  | nil => simp [find]
  | cons x xs ih =>
    have hx : x ≠ c := fun hcon => h (hcon ▸ List.mem_cons_self _ _)
    have hxs : c ∉ xs := fun hcon => h (List.mem_cons_of_mem _ hcon)
    simp [find, hx, ih hxs]

theorem borrowedLoop_join (bb : List Str) :
    ∀ (fuel : Nat) (user : LibraryUser), bb.length < fuel →
      (∀ s ∈ bb, s ≠ [] ∧ ',' ∉ s) →
      borrowedLoop fuel (LibraryUser.joinBorrowed bb) user
        = { user with borrowedBooks := user.borrowedBooks ++ bb } := by
  induction bb with
  | nil =>
    intro fuel user hf _
    cases fuel with
    | zero => cases hf
    | succ n => simp [borrowedLoop, LibraryUser.joinBorrowed, find]
  | cons s bb ih =>
    intro fuel user hf hok
    cases fuel with
    | zero => cases hf
    | succ n =>
      obtain ⟨hne, hcomma⟩ := hok s (List.mem_cons_self _ _)
      have hrec := ih n (user.borrowBook s) (Nat.lt_of_succ_lt_succ hf)
        (fun x hx => hok x (List.mem_cons_of_mem _ hx))
      have hjoin : LibraryUser.joinBorrowed (s :: bb)
          = s ++ ',' :: LibraryUser.joinBorrowed bb := by
        simp [LibraryUser.joinBorrowed]
      have htake : (s ++ ',' :: LibraryUser.joinBorrowed bb).take s.length = s := by
        simp
      have hdrop : (s ++ ',' :: LibraryUser.joinBorrowed bb).drop (s.length + 1)
          = LibraryUser.joinBorrowed bb := by
        rw [← List.drop_drop, List.drop_left]
        rfl
      simp only [LibraryUser.borrowBook] at hrec
      rw [hjoin]
      simp only [borrowedLoop, find_append ',' s _ hcomma, htake, hdrop, ne_eq, hne,
        not_false_eq_true, if_true, hrec, LibraryUser.borrowBook, List.append_assoc,
        List.singleton_append]

theorem length_le_joinBorrowed (bb : List Str) :
    bb.length ≤ (LibraryUser.joinBorrowed bb).length := by
  induction bb with
  | nil => simp
  | cons b bs ih =>
    simp only [LibraryUser.joinBorrowed, List.length_cons, List.length_append, List.length_nil]
    omega

theorem newline_not_mem_joinBorrowed (bb : List Str) (h : ∀ s ∈ bb, '\n' ∉ s) :
    '\n' ∉ LibraryUser.joinBorrowed bb := by
  induction bb with
  | nil => simp [LibraryUser.joinBorrowed]
  | cons b bs ih =>
    simp only [LibraryUser.joinBorrowed, List.mem_append, List.mem_singleton, not_or]
    refine ⟨⟨h b (List.mem_cons_self _ _), by decide⟩,
      ih (fun s hs => h s (List.mem_cons_of_mem _ hs))⟩

theorem userFileString_line (u : LibraryUser) (rest : Str) :
    u.toFileString ++ ['\n'] ++ rest
      = u.userID ++ '|' :: (u.name ++ '|' ::
          (LibraryUser.joinBorrowed u.borrowedBooks ++ '\n' :: rest)) := by
  simp [LibraryUser.toFileString, List.append_assoc]

theorem loadUsersLoop_save (us : List LibraryUser) :
    ∀ (fuel : Nat) (acc : List LibraryUser), us.length < fuel →
      (∀ u ∈ us, EncodableUser u) →
      loadUsersLoop fuel ⟨saveUsersLoop us, false, false⟩ acc = acc ++ us := by
  induction us with
  | nil =>
    intro fuel acc hf _
    cases fuel with
    | zero => cases hf
    | succ n => simp [loadUsersLoop, saveUsersLoop, getline_nil]
  | cons u us ih =>
    intro fuel acc hf henc
    cases fuel with
    | zero => cases hf
    | succ n =>
      obtain ⟨hid, hname, hbb⟩ := henc u (List.mem_cons_self _ _)
      have hnl := newline_not_mem_joinBorrowed u.borrowedBooks (fun s hs => (hbb s hs).2.2)
      have hparse := borrowedLoop_join u.borrowedBooks
        ((LibraryUser.joinBorrowed u.borrowedBooks).length + 1) ⟨u.userID, u.name, []⟩
        (Nat.lt_succ_of_le (length_le_joinBorrowed _))
        (fun s hs => ⟨(hbb s hs).1, (hbb s hs).2.1⟩)
      have hrec := ih n (acc ++ [u]) (Nat.lt_of_succ_lt_succ hf)
        (fun x hx => henc x (List.mem_cons_of_mem _ hx))
      have hsave : saveUsersLoop (u :: us)
          = u.userID ++ '|' :: (u.name ++ '|' ::
              (LibraryUser.joinBorrowed u.borrowedBooks ++ '\n' :: saveUsersLoop us)) :=
        userFileString_line u (saveUsersLoop us)
      simp only [List.nil_append] at hparse
      rw [hsave]
      simp only [loadUsersLoop,
        getline_field '|' _ _ hid, getline_field '|' _ _ hname,
        getline_field '\n' _ _ hnl, hparse, List.nil_append, hrec, List.append_assoc,
        List.singleton_append]

theorem length_le_saveUsersLoop (us : List LibraryUser) :
    us.length ≤ (saveUsersLoop us).length := by
  induction us with
  | nil => simp
  | cons b bs ih =>
    simp only [saveUsersLoop, List.length_cons, List.length_append, List.length_nil]
    omega

/-- Loading what `save` wrote gives back the books and users, when they are encodable. -/
theorem load_save (lib : Library) (hb : ∀ b ∈ lib.books, Encodable b)
    (hu : ∀ u ∈ lib.users, EncodableUser u) :
    load (some lib.save.1) (some lib.save.2) = ⟨lib.books, lib.users, []⟩ := by
  have h1 := loadBooksLoop_save lib.books ((saveBooksLoop lib.books).length + 1) []
    (Nat.lt_succ_of_le (length_le_saveBooksLoop _)) hb
  have h2 := loadUsersLoop_save lib.users ((saveUsersLoop lib.users).length + 1) []
    (Nat.lt_succ_of_le (length_le_saveUsersLoop _)) hu
  simp only [load, save, saveBooks, saveUsers, loadBooks, loadUsers, IStream.open, empty,
    h1, h2, List.nil_append]

end Library

/-! ### The iteration bounds of the load loops are never reached -/

theorem getlineScan_length (delim : Char) (s : Str) :
    ((getlineScan delim s).2.2 = false →
      (getlineScan delim s).2.1.length < s.length) ∧
    ((getlineScan delim s).2.2 = true →
      (getlineScan delim s).2.1 = [] ∧ (getlineScan delim s).1 = s) := by
  induction s with
  | nil => simp [getlineScan]
  | cons c cs ih =>
    by_cases hc : c = delim
    · simp [getlineScan, hc]
    · simp only [getlineScan, hc, if_false, List.length_cons, List.cons.injEq, true_and]
      exact ⟨fun h => Nat.lt_succ_of_lt (ih.1 h), fun h => ih.2 h⟩

/-- A successful `getline` extracts at least one character. -/
theorem getline_some_length (is is1 : IStream) (delim : Char) (str : Str)
    (h : getline is delim = (is1, some str)) : is1.rest.length < is.rest.length := by
  unfold getline at h
  split at h
  · cases h
  · have hscan := getlineScan_length delim is.rest
    split at h
    · rename_i heq
      rw [heq] at hscan
      simp only [Prod.mk.injEq, Option.some.injEq] at h
      rw [← h.1]
      exact hscan.1 rfl
    · rename_i heq
      rw [heq] at hscan
      split at h
      · cases h
      · rename_i hne
        simp only [Prod.mk.injEq, Option.some.injEq] at h
        obtain ⟨hrest, hstr⟩ := hscan.2 rfl
        simp only at hrest hstr
        rw [← h.1]
        subst hrest
        rw [← hstr]
        exact List.length_pos.mpr hne

namespace Library

/-- More iterations than characters left change nothing: `loadBooksLoop` stops by
itself before the bound is reached. -/
theorem loadBooksLoop_fuel (n : Nat) :
    ∀ (k : Nat) (file : IStream) (acc : List Book), file.rest.length < n →
      loadBooksLoop (n + k) file acc = loadBooksLoop n file acc := by
  induction n with
  | zero => intro k file acc h; cases h
  | succ n ih =>
    intro k file acc hlen
    rw [Nat.succ_add]
    rcases h1 : getline file '|' with ⟨file1, _ | title⟩
    · simp only [loadBooksLoop, h1]
    rcases h2 : getline file1 '|' with ⟨file2, _ | author⟩
    · simp only [loadBooksLoop, h1, h2]
    rcases h3 : getline file2 '|' with ⟨file3, _ | isbn⟩
    · simp only [loadBooksLoop, h1, h2, h3]
    rcases h4 : getline file3 '\n' with ⟨file4, _ | status⟩
    · simp only [loadBooksLoop, h1, h2, h3, h4]
    simp only [loadBooksLoop, h1, h2, h3, h4]
    apply ih
    have l1 := getline_some_length _ _ _ _ h1
    have l2 := getline_some_length _ _ _ _ h2
    have l3 := getline_some_length _ _ _ _ h3
    have l4 := getline_some_length _ _ _ _ h4
    omega

theorem find_some_lt (c : Char) (s : Str) : ∀ pos, find c s = some pos → pos < s.length := by
  induction s with
  | nil => intro pos h; simp [find] at h
  | cons x xs ih =>
    intro pos h
    by_cases hx : x = c
    · simp only [find, hx, if_true, Option.some.injEq] at h
      subst h
      simp
    · simp only [find, hx, if_false, Option.map_eq_some'] at h
      obtain ⟨m, hm, rfl⟩ := h
      simpa using ih m hm

/-- More iterations than characters change nothing: `borrowedLoop` stops by itself. -/
theorem borrowedLoop_fuel (n : Nat) :
    ∀ (k : Nat) (borrowed : Str) (user : LibraryUser), borrowed.length < n →
      borrowedLoop (n + k) borrowed user = borrowedLoop n borrowed user := by
  induction n with
  | zero => intro k borrowed user h; cases h
  | succ n ih =>
    intro k borrowed user hlen
    rw [Nat.succ_add]
    rcases hf : find ',' borrowed with _ | pos
    · simp only [borrowedLoop, hf]
    · simp only [borrowedLoop, hf]
      apply ih
      have := find_some_lt ',' borrowed pos hf
      simp only [List.length_drop]
      omega

/-- More iterations than characters left change nothing: `loadUsersLoop` stops by
itself before the bound is reached. -/
theorem loadUsersLoop_fuel (n : Nat) :
    ∀ (k : Nat) (file : IStream) (acc : List LibraryUser), file.rest.length < n →
      loadUsersLoop (n + k) file acc = loadUsersLoop n file acc := by
  induction n with
  | zero => intro k file acc h; cases h
  | succ n ih =>
    intro k file acc hlen
    rw [Nat.succ_add]
    rcases h1 : getline file '|' with ⟨file1, _ | id⟩
    · simp only [loadUsersLoop, h1]
    rcases h2 : getline file1 '|' with ⟨file2, _ | name⟩
    · simp only [loadUsersLoop, h1, h2]
    rcases h3 : getline file2 '\n' with ⟨file3, _ | borrowed⟩
    · simp only [loadUsersLoop, h1, h2, h3]
    simp only [loadUsersLoop, h1, h2, h3]
    apply ih
    have l1 := getline_some_length _ _ _ _ h1
    have l2 := getline_some_length _ _ _ _ h2
    have l3 := getline_some_length _ _ _ _ h3
    omega

end Library

/-- Claim C9. For a catalogue in which no title, author, ISBN, userID or name contains
the separator or a newline and every borrowed ISBN is non-empty and contains no comma,
separator or newline, loading the two files that `save` writes gives the same books and
the same users, in the same order with the same fields, and an empty history. -/
theorem C9_save_load_roundtrip (lib : Library)
    (hb : ∀ b ∈ lib.books,
      ('|' ∉ b.title ∧ '\n' ∉ b.title) ∧ ('|' ∉ b.author ∧ '\n' ∉ b.author) ∧
      ('|' ∉ b.isbn ∧ '\n' ∉ b.isbn))
    (hu : ∀ u ∈ lib.users,
      ('|' ∉ u.userID ∧ '\n' ∉ u.userID) ∧ ('|' ∉ u.name ∧ '\n' ∉ u.name) ∧
      ∀ s ∈ u.borrowedBooks, s ≠ [] ∧ ',' ∉ s ∧ '|' ∉ s ∧ '\n' ∉ s) :
    Library.load (some lib.save.1) (some lib.save.2)
      = { books := lib.books, users := lib.users, history := [] } := by
  apply Library.load_save
  · intro b hbm
    obtain ⟨h1, h2, h3⟩ := hb b hbm
    exact ⟨h1.1, h2.1, h3.1⟩
  · intro u hum
    obtain ⟨h1, h2, h3⟩ := hu u hum
    exact ⟨h1.1, h2.1, fun s hs => ⟨(h3 s hs).1, (h3 s hs).2.1, (h3 s hs).2.2.2⟩⟩

/-- Witness for C9: two books, two users and a non-empty history. -/
theorem C9_save_load_roundtrip_witness :
    Library.load
      (some (Library.mk [⟨['D', 'u'], ['F'], ['9', '-', '1'], false⟩, ⟨[], ['G'], ['8'], true⟩]
        [⟨['U'], ['A', ' ', 'B'], [['9', '-', '1'], ['7']]⟩, ⟨['V'], [], []⟩]
        [⟨['U'], ['9', '-', '1'], "Borrowed"⟩]).save.1)
      (some (Library.mk [⟨['D', 'u'], ['F'], ['9', '-', '1'], false⟩, ⟨[], ['G'], ['8'], true⟩]
        [⟨['U'], ['A', ' ', 'B'], [['9', '-', '1'], ['7']]⟩, ⟨['V'], [], []⟩]
        [⟨['U'], ['9', '-', '1'], "Borrowed"⟩]).save.2)
      = { books := [⟨['D', 'u'], ['F'], ['9', '-', '1'], false⟩, ⟨[], ['G'], ['8'], true⟩],
          users := [⟨['U'], ['A', ' ', 'B'], [['9', '-', '1'], ['7']]⟩, ⟨['V'], [], []⟩],
          history := [] } :=
  C9_save_load_roundtrip
    (Library.mk [⟨['D', 'u'], ['F'], ['9', '-', '1'], false⟩, ⟨[], ['G'], ['8'], true⟩]
        [⟨['U'], ['A', ' ', 'B'], [['9', '-', '1'], ['7']]⟩, ⟨['V'], [], []⟩]
        [⟨['U'], ['9', '-', '1'], "Borrowed"⟩])
    (by decide) (by decide)

namespace Library

theorem loadBooksLoop_encodable (fuel : Nat) :
    ∀ (file : IStream) (acc : List Book), (∀ b ∈ acc, Encodable b) →
      ∀ b ∈ loadBooksLoop fuel file acc, Encodable b := by
  induction fuel with
  | zero => intro file acc hacc; exact hacc
  | succ n ih =>
    intro file acc hacc
    rcases h1 : getline file '|' with ⟨file1, _ | title⟩
    · simpa only [loadBooksLoop, h1] using hacc
    rcases h2 : getline file1 '|' with ⟨file2, _ | author⟩
    · simpa only [loadBooksLoop, h1, h2] using hacc
    rcases h3 : getline file2 '|' with ⟨file3, _ | isbn⟩
    · simpa only [loadBooksLoop, h1, h2, h3] using hacc
    rcases h4 : getline file3 '\n' with ⟨file4, _ | status⟩
    · simpa only [loadBooksLoop, h1, h2, h3, h4] using hacc
    simp only [loadBooksLoop, h1, h2, h3, h4]
    apply ih
    intro b hb
    rcases List.mem_append.mp hb with hb | hb
    · exact hacc b hb
    · rw [List.mem_singleton] at hb
      subst hb
      exact ⟨getline_some_not_mem _ _ _ _ h1, getline_some_not_mem _ _ _ _ h2,
        getline_some_not_mem _ _ _ _ h3⟩

theorem find_take_not_mem (c : Char) (s : Str) :
    ∀ pos, find c s = some pos → c ∉ s.take pos := by
  induction s with
  | nil => intro pos h; simp [find] at h
  | cons x xs ih =>
    intro pos h
    by_cases hx : x = c
    · simp only [find, hx, if_true, Option.some.injEq] at h
      subst h
      simp
    · simp only [find, hx, if_false, Option.map_eq_some'] at h
      obtain ⟨m, hm, rfl⟩ := h
      simp only [List.take_succ_cons, List.mem_cons, not_or]
      exact ⟨fun hcon => hx hcon.symm, ih m hm⟩

theorem borrowedLoop_ids (fuel : Nat) :
    ∀ (borrowed : Str) (user : LibraryUser),
      (borrowedLoop fuel borrowed user).userID = user.userID ∧
      (borrowedLoop fuel borrowed user).name = user.name := by
  induction fuel with
  | zero => intro borrowed user; exact ⟨rfl, rfl⟩
  | succ n ih =>
    intro borrowed user
    rcases hf : find ',' borrowed with _ | pos
    · simp only [borrowedLoop, hf, and_self]
    · simp only [borrowedLoop, hf]
      have := ih (borrowed.drop (pos + 1))
        (if borrowed.take pos ≠ [] then user.borrowBook (borrowed.take pos) else user)
      rw [this.1, this.2]
      split <;> exact ⟨rfl, rfl⟩

theorem borrowedLoop_tokens (fuel : Nat) :
    ∀ (borrowed : Str) (user : LibraryUser), '\n' ∉ borrowed →
      (∀ s ∈ user.borrowedBooks, s ≠ [] ∧ ',' ∉ s ∧ '\n' ∉ s) →
      ∀ s ∈ (borrowedLoop fuel borrowed user).borrowedBooks, s ≠ [] ∧ ',' ∉ s ∧ '\n' ∉ s := by
  induction fuel with
  | zero => intro borrowed user _ hacc; exact hacc
  | succ n ih =>
    intro borrowed user hnl hacc
    rcases hf : find ',' borrowed with _ | pos
    · simpa only [borrowedLoop, hf] using hacc
    · simp only [borrowedLoop, hf]
      apply ih
      · exact fun hcon => hnl (List.mem_of_mem_drop hcon)
      · by_cases hne : borrowed.take pos = []
        · simpa only [hne, ne_eq, not_true_eq_false, if_false] using hacc
        · simp only [ne_eq, hne, not_false_eq_true, if_true, LibraryUser.borrowBook]
          intro s hs
          rcases List.mem_append.mp hs with hs | hs
          · exact hacc s hs
          · rw [List.mem_singleton] at hs
            subst hs
            exact ⟨hne, find_take_not_mem ',' borrowed pos hf,
              fun hcon => hnl (List.mem_of_mem_take hcon)⟩

theorem loadUsersLoop_encodable (fuel : Nat) :
    ∀ (file : IStream) (acc : List LibraryUser), (∀ u ∈ acc, EncodableUser u) →
      ∀ u ∈ loadUsersLoop fuel file acc, EncodableUser u := by
  induction fuel with
  | zero => intro file acc hacc; exact hacc
  | succ n ih =>
    intro file acc hacc
    rcases h1 : getline file '|' with ⟨file1, _ | id⟩
    · simpa only [loadUsersLoop, h1] using hacc
    rcases h2 : getline file1 '|' with ⟨file2, _ | name⟩
    · simpa only [loadUsersLoop, h1, h2] using hacc
    rcases h3 : getline file2 '\n' with ⟨file3, _ | borrowed⟩
    · simpa only [loadUsersLoop, h1, h2, h3] using hacc
    simp only [loadUsersLoop, h1, h2, h3]
    apply ih
    intro u hu
    rcases List.mem_append.mp hu with hu | hu
    · exact hacc u hu
    · rw [List.mem_singleton] at hu
      subst hu
      have hids := borrowedLoop_ids (borrowed.length + 1) borrowed ⟨id, name, []⟩
      refine ⟨?_, ?_, ?_⟩
      · rw [hids.1]; exact getline_some_not_mem _ _ _ _ h1
      · rw [hids.2]; exact getline_some_not_mem _ _ _ _ h2
      · exact borrowedLoop_tokens _ borrowed ⟨id, name, []⟩
          (getline_some_not_mem _ _ _ _ h3) (fun s hs => by cases hs)

/-- Every book and user that the constructor loads is encodable, whatever the files hold. -/
theorem load_encodable (booksFile usersFile : Option Str) :
    (∀ b ∈ (load booksFile usersFile).books, Encodable b) ∧
    (∀ u ∈ (load booksFile usersFile).users, EncodableUser u) := by
  constructor
  · exact loadBooksLoop_encodable _ _ [] (fun b hb => by cases hb)
  · exact loadUsersLoop_encodable _ _ [] (fun u hu => by cases hu)

end Library

/-- Claim C10. For every books-file text `F` and users-file text `G`: if `(F1, G1)` is what
`save` writes after loading `(F, G)` and `(F2, G2)` what it writes after loading
`(F1, G1)`, then `F2 = F1` and `G2 = G1`. -/
theorem C10_save_load_idempotent (F G : Str) :
    (Library.load (some (Library.load (some F) (some G)).save.1)
        (some (Library.load (some F) (some G)).save.2)).save
      = (Library.load (some F) (some G)).save := by
  have henc := Library.load_encodable (some F) (some G)
  rw [Library.load_save _ henc.1 henc.2]
  rfl

namespace Library

/-- The books loaded onto a non-empty vector are appended to it. -/
theorem loadBooksLoop_acc (fuel : Nat) :
    ∀ (file : IStream) (acc : List Book),
      loadBooksLoop fuel file acc = acc ++ loadBooksLoop fuel file [] := by
  induction fuel with
  | zero => intro file acc; simp [loadBooksLoop]
  | succ n ih =>
    intro file acc
    rcases h1 : getline file '|' with ⟨file1, _ | title⟩
    · simp only [loadBooksLoop, h1, List.append_nil]
    rcases h2 : getline file1 '|' with ⟨file2, _ | author⟩
    · simp only [loadBooksLoop, h1, h2, List.append_nil]
    rcases h3 : getline file2 '|' with ⟨file3, _ | isbn⟩
    · simp only [loadBooksLoop, h1, h2, h3, List.append_nil]
    rcases h4 : getline file3 '\n' with ⟨file4, _ | status⟩
    · simp only [loadBooksLoop, h1, h2, h3, h4, List.append_nil]
    simp only [loadBooksLoop, h1, h2, h3, h4]
    rw [ih file4 (acc ++ _), ih file4 ([] ++ _)]
    simp only [List.nil_append, List.append_assoc]

/-- One record of the books file: three fields ended by the separator and a status ended
by a newline are decoded into one book, and the loop goes on with the text after it. -/
theorem loadBooksLoop_record (t a i s rest : Str)
    (ht : '|' ∉ t) (ha : '|' ∉ a) (hi : '|' ∉ i) (hs : '\n' ∉ s) :
    loadBooksLoop ((t ++ '|' :: (a ++ '|' :: (i ++ '|' :: (s ++ '\n' :: rest)))).length + 1)
        ⟨t ++ '|' :: (a ++ '|' :: (i ++ '|' :: (s ++ '\n' :: rest))), false, false⟩ []
      = ⟨t, a, i, decide (s = ['1'])⟩
          :: loadBooksLoop (rest.length + 1) ⟨rest, false, false⟩ [] := by
  have hlen : (t ++ '|' :: (a ++ '|' :: (i ++ '|' :: (s ++ '\n' :: rest)))).length
      = (rest.length + 1) + (t.length + a.length + i.length + s.length + 3) := by
    simp only [List.length_append, List.length_cons]
    omega
  simp only [loadBooksLoop, getline_field '|' _ _ ht, getline_field '|' _ _ ha,
    getline_field '|' _ _ hi, getline_field '\n' _ _ hs, List.nil_append]
  rw [loadBooksLoop_acc, hlen, loadBooksLoop_fuel (rest.length + 1) _ ⟨rest, false, false⟩ []
    (Nat.lt_succ_self _)]
  rfl

end Library

theorem getlineScan_found (delim : Char) (s : Str) :
    (getlineScan delim s).2.2 = false →
      s = (getlineScan delim s).1 ++ delim :: (getlineScan delim s).2.1 := by
  induction s with
  | nil => simp [getlineScan]
  | cons c cs ih =>
    by_cases hc : c = delim
    · simp [getlineScan, hc]
    · simp only [getlineScan, hc, if_false, List.cons_append, List.cons.injEq, true_and]
      exact ih

theorem getlineScan_no_delim (delim : Char) (s : Str) (h : delim ∉ s) :
    getlineScan delim s = (s, [], true) := by
  induction s with
  | nil => rfl
  | cons c cs ih =>
    have hc : c ≠ delim := fun hcon => h (hcon ▸ List.mem_cons_self _ _)
    have hcs : delim ∉ cs := fun hcon => h (List.mem_cons_of_mem _ hcon)
    simp only [getlineScan, hc, if_false, ih hcs]

/-- Reading the last, unterminated field of the file: the end of file is recorded. -/
theorem getline_last (delim : Char) (s : Str) (h : delim ∉ s) (hne : s ≠ []) :
    getline ⟨s, false, false⟩ delim = (⟨[], true, false⟩, some s) := by
  simp [getline, getlineScan_no_delim delim s h, hne]

/-- Once `eofbit` is set every further `getline` fails. -/
theorem getline_eof (rest : Str) (failbit : Bool) (delim : Char) :
    (getline ⟨rest, true, failbit⟩ delim).2 = none := by
  simp [getline]

/-- A successful `getline` started on a good stream; either it stopped at the delimiter,
or it consumed the rest of the file and set `eofbit`. -/
theorem getline_some_inv (is is1 : IStream) (delim : Char) (str : Str)
    (h : getline is delim = (is1, some str)) :
    (is1.eofbit = false ∧ is.rest = str ++ delim :: is1.rest) ∨
    (is1.eofbit = true ∧ is.rest = str ∧ is1.rest = []) := by
  unfold getline at h
  split at h
  · cases h
  · have hfound := getlineScan_found delim is.rest
    have heof := (getlineScan_length delim is.rest).2
    split at h
    · rename_i heq
      rw [heq] at hfound
      simp only [Prod.mk.injEq, Option.some.injEq] at h
      obtain ⟨h1, h2⟩ := h
      subst h1 h2
      exact Or.inl ⟨rfl, hfound rfl⟩
    · rename_i heq
      rw [heq] at heof
      split at h
      · cases h
      · simp only [Prod.mk.injEq, Option.some.injEq] at h
        obtain ⟨h1, h2⟩ := h
        subst h1 h2
        obtain ⟨hrest, hstr⟩ := heof rfl
        exact Or.inr ⟨rfl, hstr.symm, hrest⟩

namespace Library

theorem loadBooksLoop_eof (fuel : Nat) (rest : Str) (failbit : Bool) (acc : List Book) :
    loadBooksLoop fuel ⟨rest, true, failbit⟩ acc = acc := by
  cases fuel with
  | zero => rfl
  | succ n =>
    rcases h1 : getline ⟨rest, true, failbit⟩ '|' with ⟨file1, _ | title⟩
    · simp only [loadBooksLoop, h1]
    · have := getline_eof rest failbit '|'
      rw [h1] at this
      cases this

/-- The last record of the books file, without a final newline: it is decoded into a
book when its status is non-empty, and into nothing when the text ends right after the
third separator. -/
theorem loadBooksLoop_last (t a i s : Str)
    (ht : '|' ∉ t) (ha : '|' ∉ a) (hi : '|' ∉ i) (hs : '\n' ∉ s) :
    loadBooksLoop ((t ++ '|' :: (a ++ '|' :: (i ++ '|' :: s))).length + 1)
        ⟨t ++ '|' :: (a ++ '|' :: (i ++ '|' :: s)), false, false⟩ []
      = if s = [] then [] else [⟨t, a, i, decide (s = ['1'])⟩] := by
  by_cases hne : s = []
  · subst hne
    simp only [loadBooksLoop, getline_field '|' _ _ ht, getline_field '|' _ _ ha,
      getline_field '|' _ _ hi, getline_nil, if_true]
  · simp only [loadBooksLoop, getline_field '|' _ _ ht, getline_field '|' _ _ ha,
      getline_field '|' _ _ hi, getline_last '\n' s hs hne, loadBooksLoop_eof, hne, if_false,
      List.nil_append]

/-- Every decoded book uses up three separators of the text. -/
theorem loadBooksLoop_count (fuel : Nat) :
    ∀ (file : IStream) (acc : List Book),
      3 * (loadBooksLoop fuel file acc).length ≤ 3 * acc.length + file.rest.count '|' := by
  induction fuel with
  | zero => intro file acc; simp only [loadBooksLoop]; omega
  | succ n ih =>
    intro file acc
    rcases h1 : getline file '|' with ⟨file1, _ | title⟩
    · simp only [loadBooksLoop, h1]; omega
    rcases h2 : getline file1 '|' with ⟨file2, _ | author⟩
    · simp only [loadBooksLoop, h1, h2]; omega
    rcases h3 : getline file2 '|' with ⟨file3, _ | isbn⟩
    · simp only [loadBooksLoop, h1, h2, h3]; omega
    rcases h4 : getline file3 '\n' with ⟨file4, _ | status⟩
    · simp only [loadBooksLoop, h1, h2, h3, h4]; omega
    simp only [loadBooksLoop, h1, h2, h3, h4]
    have hstep : ∀ (f g h : IStream) (x y : Str) (d : Char),
        getline f '|' = (g, some x) → getline g d = (h, some y) →
        g.rest.count '|' + 1 ≤ f.rest.count '|' := by
      intro f g h x y d hf hg
      rcases getline_some_inv f g '|' x hf with ⟨_, hrest⟩ | ⟨heof, _, _⟩
      · rw [hrest]
        simp only [List.count_append, List.count_cons_self]
        omega
      · have hfail := getline_eof g.rest g.failbit d
        have hg2 : getline ⟨g.rest, true, g.failbit⟩ d = (h, some y) := by
          rw [← heof]; exact hg
        rw [hg2] at hfail
        cases hfail
    have c1 := hstep file file1 file2 title author '|' h1 h2
    have c2 := hstep file1 file2 file3 author isbn '|' h2 h3
    have c3 := hstep file2 file3 file4 isbn status '\n' h3 h4
    have c4 : file4.rest.count '|' ≤ file3.rest.count '|' := by
      rcases getline_some_inv file3 file4 '\n' status h4 with ⟨_, hrest⟩ | ⟨_, _, hnil⟩
      · rw [hrest]
        simp only [List.count_append]
        have := List.count_le_count_cons '|' '\n' file4.rest
        omega
      · rw [hnil]; simp
    have := ih file4 (acc ++ [⟨title, author, isbn, decide (status = ['1'])⟩])
    simp only [List.length_append, List.length_singleton] at this
    omega

end Library

/-- Counterexample to C11 as stated: the first line has a single separator. It is not
decoded into a book of its own with empty trailing fields; its author field runs on into
the next line, whose record `X|Y|Z|1` is never decoded as a book of its own. And a short
line at the end of the text yields no book at all. -/
theorem C11_counterexample :
    (Library.empty.loadBooks (some "t|a\nX|Y|Z|1\nP|Q|R|1\n".toList)).books
      = [⟨['t'], ['a', '\n', 'X'], ['Y'], false⟩, ⟨['P'], ['Q'], ['R'], true⟩] ∧
    (⟨['X'], ['Y'], ['Z'], true⟩ : Book) ∉
      (Library.empty.loadBooks (some "t|a\nX|Y|Z|1\nP|Q|R|1\n".toList)).books ∧
    (¬ ∃ b ∈ (Library.empty.loadBooks (some "t|a\nX|Y|Z|1\nP|Q|R|1\n".toList)).books,
        b.title = ['t'] ∧ b.author = ['a'] ∧ b.isbn = []) ∧
    (Library.empty.loadBooks (some "P|Q|R|1\nt|a\n".toList)).books
      = [⟨['P'], ['Q'], ['R'], true⟩] := by
  decide

/-- Claim C11, amended. The function `loadBooks` raises no error and decodes field by
field, not line by line: title, author and ISBN each run to the next separator, across
line breaks, and the status runs to the next newline or to the end of the text.
(1) Three separator-free fields each followed by the separator, a newline-free status and
a newline give the book with these fields (available when the status is `1`), followed
by the books decoded from the rest of the text. (2) The same without the final newline,
at the end of the text, gives that one book when the status is non-empty and no book when
it is empty. (3) Every decoded book uses up three separators: three times the number of
books is at most the number of separators in the text. (4) So a text with fewer than
three separators is decoded into no book at all: a record short of separators never
becomes a book with empty trailing fields. -/
theorem C11_loadBooks_decoding :
    (∀ t a i s rest : Str, '|' ∉ t → '|' ∉ a → '|' ∉ i → '\n' ∉ s →
      (Library.empty.loadBooks
          (some (t ++ ['|'] ++ a ++ ['|'] ++ i ++ ['|'] ++ s ++ ['\n'] ++ rest))).books
        = ⟨t, a, i, decide (s = ['1'])⟩ :: (Library.empty.loadBooks (some rest)).books) ∧
    (∀ t a i s : Str, '|' ∉ t → '|' ∉ a → '|' ∉ i → '\n' ∉ s →
      (Library.empty.loadBooks (some (t ++ ['|'] ++ a ++ ['|'] ++ i ++ ['|'] ++ s))).books
        = if s = [] then [] else [⟨t, a, i, decide (s = ['1'])⟩]) ∧
    (∀ text : Str,
      3 * (Library.empty.loadBooks (some text)).books.length ≤ text.count '|') ∧
    (∀ text : Str, text.count '|' < 3 →
      (Library.empty.loadBooks (some text)).books = []) := by
  have hcount : ∀ text : Str,
      3 * (Library.empty.loadBooks (some text)).books.length ≤ text.count '|' := by
    intro text
    have := Library.loadBooksLoop_count (text.length + 1) ⟨text, false, false⟩ []
    simpa [Library.loadBooks, Library.empty, IStream.open] using this
  refine ⟨?_, ?_, hcount, ?_⟩
  · intro t a i s rest ht ha hi hs
    have htext : t ++ ['|'] ++ a ++ ['|'] ++ i ++ ['|'] ++ s ++ ['\n'] ++ rest
        = t ++ '|' :: (a ++ '|' :: (i ++ '|' :: (s ++ '\n' :: rest))) := by
      simp [List.append_assoc]
    rw [htext]
    exact Library.loadBooksLoop_record t a i s rest ht ha hi hs
  · intro t a i s ht ha hi hs
    have htext : t ++ ['|'] ++ a ++ ['|'] ++ i ++ ['|'] ++ s
        = t ++ '|' :: (a ++ '|' :: (i ++ '|' :: s)) := by
      simp [List.append_assoc]
    rw [htext]
    exact Library.loadBooksLoop_last t a i s ht ha hi hs
  · intro text hlt
    have h := hcount text
    have hlen : (Library.empty.loadBooks (some text)).books.length = 0 := by omega
    exact List.length_eq_zero.mp hlen

/-- Witness for C11 (amended): a record whose author field spans a line break, followed
by a well-formed line; a last record without a final newline; and a short line alone. -/
theorem C11_loadBooks_decoding_witness :
    (Library.empty.loadBooks
        (some (['t'] ++ ['|'] ++ ['a', '\n', 'X'] ++ ['|'] ++ ['Y'] ++ ['|'] ++ ['Z', '|', '1']
          ++ ['\n'] ++ "P|Q|R|1\n".toList))).books
      = ⟨['t'], ['a', '\n', 'X'], ['Y'], decide (['Z', '|', '1'] = ['1'])⟩
          :: (Library.empty.loadBooks (some "P|Q|R|1\n".toList)).books ∧
    (Library.empty.loadBooks (some (['P'] ++ ['|'] ++ ['Q'] ++ ['|'] ++ ['R'] ++ ['|'] ++ ['1']))).books
      = (if ['1'] = ([] : Str) then [] else [⟨['P'], ['Q'], ['R'], decide (['1'] = ['1'])⟩]) ∧
    (Library.empty.loadBooks (some "t|a\nx y\n".toList)).books = [] :=
  ⟨C11_loadBooks_decoding.1 ['t'] ['a', '\n', 'X'] ['Y'] ['Z', '|', '1'] "P|Q|R|1\n".toList
      (by decide) (by decide) (by decide) (by decide),
   C11_loadBooks_decoding.2.1 ['P'] ['Q'] ['R'] ['1']
      (by decide) (by decide) (by decide) (by decide),
   C11_loadBooks_decoding.2.2.2 "t|a\nx y\n".toList (by decide)⟩

namespace Library

theorem specTokensFrom_find_none (s : Str) :
    ∀ cur, find ',' s = none → specTokensFrom s cur = [] := by
  induction s with
  | nil => intro cur _; rfl
  | cons x xs ih =>
    intro cur h
    by_cases hx : x = ','
    · simp [find, hx] at h
    · simp only [find, hx, if_false, Option.map_eq_none'] at h
      simp only [specTokensFrom, hx, if_false]
      exact ih _ h

theorem specTokensFrom_find_some (s : Str) :
    ∀ cur pos, find ',' s = some pos →
      specTokensFrom s cur = (cur ++ s.take pos) :: specTokensFrom (s.drop (pos + 1)) [] := by
  induction s with
  | nil => intro cur pos h; simp [find] at h
  | cons x xs ih =>
    intro cur pos h
    by_cases hx : x = ','
    · simp only [find, hx, if_true, Option.some.injEq] at h
      subst h
      simp [specTokensFrom, hx]
    · simp only [find, hx, if_false, Option.map_eq_some'] at h
      obtain ⟨m, hm, rfl⟩ := h
      simp only [specTokensFrom, hx, if_false, ih _ m hm, List.take_succ_cons,
        List.drop_succ_cons, List.append_assoc, List.singleton_append]

/-- The inner loop of `loadUsers` borrows the non-empty comma-terminated tokens, in order. -/
theorem borrowedLoop_spec (fuel : Nat) :
    ∀ (borrowed : Str) (user : LibraryUser), borrowed.length < fuel →
      borrowedLoop fuel borrowed user
        = { user with borrowedBooks := user.borrowedBooks ++ specBorrowed borrowed } := by
  induction fuel with
  | zero => intro borrowed user h; cases h
  | succ n ih =>
    intro borrowed user hlen
    rcases hf : find ',' borrowed with _ | pos
    · simp [borrowedLoop, hf, specBorrowed, specCommaTokens,
        specTokensFrom_find_none borrowed [] hf]
    · have hpos := find_some_lt ',' borrowed pos hf
      have hdrop : (borrowed.drop (pos + 1)).length < n := by
        simp only [List.length_drop]
        omega
      simp only [borrowedLoop, hf, ih _ _ hdrop, specBorrowed, specCommaTokens,
        specTokensFrom_find_some borrowed [] pos hf, List.nil_append]
      by_cases hne : borrowed.take pos = []
      · simp [hne]
      · simp [hne, LibraryUser.borrowBook, List.filter_cons]

/-- The outer loop of `loadUsers` turns every record read into one user. -/
theorem loadUsersLoop_records (fuel : Nat) :
    ∀ (file : IStream) (acc : List LibraryUser),
      loadUsersLoop fuel file acc
        = acc ++ (userRecords fuel file).map
            (fun r => (⟨r.1, r.2.1, specBorrowed r.2.2⟩ : LibraryUser)) := by
  induction fuel with
  | zero => intro file acc; simp [loadUsersLoop, userRecords]
  | succ n ih =>
    intro file acc
    rcases h1 : getline file '|' with ⟨file1, _ | id⟩
    · simp only [loadUsersLoop, userRecords, h1, List.map_nil, List.append_nil]
    rcases h2 : getline file1 '|' with ⟨file2, _ | name⟩
    · simp only [loadUsersLoop, userRecords, h1, h2, List.map_nil, List.append_nil]
    rcases h3 : getline file2 '\n' with ⟨file3, _ | borrowed⟩
    · simp only [loadUsersLoop, userRecords, h1, h2, h3, List.map_nil, List.append_nil]
    simp only [loadUsersLoop, userRecords, h1, h2, h3, List.map_cons, ih,
      borrowedLoop_spec _ borrowed ⟨id, name, []⟩ (Nat.lt_succ_self _), List.nil_append,
      List.append_assoc, List.singleton_append]

end Library

/-- Claim C12. For every users-file text, the users produced by `loadUsers` are, record by
record, the userID and name read together with the non-empty comma-terminated tokens of
the third field, in order; hence no loaded `borrowedBooks` contains an empty string or a
string with a comma. -/
theorem C12_loadUsers_tokens (G : Str) :
    (Library.empty.loadUsers (some G)).users
      = (Library.userRecords (G.length + 1) (IStream.open (some G))).map
          (fun r => (⟨r.1, r.2.1, Library.specBorrowed r.2.2⟩ : LibraryUser)) ∧
    ∀ u ∈ (Library.empty.loadUsers (some G)).users,
      ∀ s ∈ u.borrowedBooks, s ≠ [] ∧ ',' ∉ s := by
  constructor
  · have := Library.loadUsersLoop_records (G.length + 1) (IStream.open (some G)) []
    simpa [Library.loadUsers, Library.empty, IStream.open] using this
  · intro u hu s hs
    have henc := Library.loadUsersLoop_encodable (G.length + 1) (IStream.open (some G)) []
      (fun x hx => by cases hx) u hu
    exact ⟨(henc.2.2 s hs).1, (henc.2.2 s hs).2.1⟩

/-- Witness for C12: empty tokens and the text after the last comma add nothing. -/
theorem C12_loadUsers_tokens_witness :
    (Library.empty.loadUsers (some "U1|Al|978-0,,12,x\nU2|Bob|\n".toList)).users
      = [⟨"U1".toList, "Al".toList, ["978-0".toList, "12".toList]⟩,
         ⟨"U2".toList, "Bob".toList, []⟩] :=
  (C12_loadUsers_tokens "U1|Al|978-0,,12,x\nU2|Bob|\n".toList).1.trans (by decide)

theorem isValidISBNLoop_spec (s : Str) :
    ∀ hasDigit, isValidISBNLoop s hasDigit
      = if (∀ c ∈ s, isdigit c = true ∨ c = '-') then
          some (hasDigit || s.any isdigit)
        else none := by
  induction s with
  | nil => intro h; simp [isValidISBNLoop]
  | cons c cs ih =>
    intro h
    by_cases hd : isdigit c = true
    · simp only [isValidISBNLoop, hd, Bool.not_true, Bool.false_and, if_true, ih,
        List.mem_cons, forall_eq_or_imp, true_or, true_and, List.any_cons, Bool.true_or,
        Bool.or_true, Bool.false_eq_true, if_false]
    · by_cases hm : c = '-'
      · subst hm
        simp [isValidISBNLoop, hd, ih]
      · simp [isValidISBNLoop, hd, hm]

/-- Claim C13. The call `isValidISBN s` is true exactly when `s` is non-empty, every
character of `s` is a decimal digit or a hyphen, and some character of `s` is a digit. -/
theorem C13_isValidISBN (s : Str) :
    isValidISBN s = true ↔
      s ≠ [] ∧ (∀ c ∈ s, ('0' ≤ c ∧ c ≤ '9') ∨ c = '-') ∧ (∃ c ∈ s, '0' ≤ c ∧ c ≤ '9') := by
  have hdig : ∀ c : Char, isdigit c = true ↔ ('0' ≤ c ∧ c ≤ '9') := by
    intro c; simp [isdigit]
  simp only [← hdig]
  by_cases hs : s = []
  · simp [isValidISBN, hs]
  · by_cases hall : ∀ c ∈ s, isdigit c = true ∨ c = '-'
    · simp only [isValidISBN, hs, if_false, isValidISBNLoop_spec, if_pos hall, Bool.false_or,
        ne_eq, not_false_eq_true, true_and, List.any_eq_true]
      exact ⟨fun h => ⟨hall, h⟩, fun h => h.2⟩
    · simp only [isValidISBN, hs, if_false, isValidISBNLoop_spec, if_neg hall,
        Bool.false_eq_true, false_iff, not_and]
      intro _ h
      exact absurd h hall

theorem isValidNameLoop_spec (s : Str) :
    isValidNameLoop s = true ↔
      ∀ c ∈ s, isalpha c = true ∨ isspace c = true ∨ c = '.' ∨ c = '&' ∨ c = '-'
        ∨ c = apostrophe := by
  induction s with
  | nil => simp [isValidNameLoop]
  | cons c cs ih =>
    simp only [isValidNameLoop, List.mem_cons, forall_eq_or_imp, ← ih]
    by_cases h : (!isalpha c && !isspace c && c != '.' && c != '&' && c != '-'
        && c != apostrophe) = true
    · simp only [h, if_true, Bool.false_eq_true, false_iff, not_and]
      intro hc
      simp only [Bool.and_eq_true, Bool.not_eq_true', bne_iff_ne, ne_eq] at h
      obtain ⟨⟨⟨⟨⟨h1, h2⟩, h3⟩, h4⟩, h5⟩, h6⟩ := h
      rcases hc with hc | hc | hc | hc | hc | hc
      · rw [h1] at hc; cases hc
      · rw [h2] at hc; cases hc
      · exact absurd hc h3
      · exact absurd hc h4
      · exact absurd hc h5
      · exact absurd hc h6
    · have hc : isalpha c = true ∨ isspace c = true ∨ c = '.' ∨ c = '&' ∨ c = '-'
          ∨ c = apostrophe := by
        simp only [Bool.and_eq_true, Bool.not_eq_true', bne_iff_ne, ne_eq, not_and,
          Bool.not_eq_false, not_not] at h
        by_cases h1 : isalpha c = true
        · exact Or.inl h1
        by_cases h2 : isspace c = true
        · exact Or.inr (Or.inl h2)
        by_cases h3 : c = '.'
        · exact Or.inr (Or.inr (Or.inl h3))
        by_cases h4 : c = '&'
        · exact Or.inr (Or.inr (Or.inr (Or.inl h4)))
        by_cases h5 : c = '-'
        · exact Or.inr (Or.inr (Or.inr (Or.inr (Or.inl h5))))
        · exact Or.inr (Or.inr (Or.inr (Or.inr (Or.inr
            (h ⟨⟨⟨⟨by simpa using h1, by simpa using h2⟩, h3⟩, h4⟩, h5⟩)))))
      rw [if_neg h]
      exact ⟨fun hl => ⟨hc, hl⟩, fun hl => hl.2⟩

/-- Claim C14. For an ASCII string `s`, the call `isValidName s` is true exactly when `s`
is non-empty and every character of `s` is a letter, a whitespace character, or one of
the full stop, the ampersand, the hyphen and the apostrophe. -/
theorem C14_isValidName (s : Str) (_hascii : ∀ c ∈ s, c.toNat < 128) :
    isValidName s = true ↔
      s ≠ [] ∧ ∀ c ∈ s, isalpha c = true ∨ isspace c = true ∨ c = '.' ∨ c = '&' ∨ c = '-'
        ∨ c = apostrophe := by
  by_cases hs : s = []
  · simp [isValidName, hs]
  · simp only [isValidName, hs, if_false, ne_eq, not_false_eq_true, true_and]
    exact isValidNameLoop_spec s

/-- Witness for C14: the name `O'Neil & Co.` is valid. -/
theorem C14_isValidName_witness :
    isValidName ['O', apostrophe, 'N', 'e', 'i', 'l', ' ', '&', ' ', 'C', 'o', '.'] = true :=
  (C14_isValidName ['O', apostrophe, 'N', 'e', 'i', 'l', ' ', '&', ' ', 'C', 'o', '.']
    (by decide)).mpr (by decide)

/-- Witness for C13: `978-0-441-0` is valid, `---` and the empty string are not. -/
theorem C13_isValidISBN_witness :
    isValidISBN "978-0-441-0".toList = true ∧ isValidISBN "---".toList = false ∧
    isValidISBN [] = false ∧
    ("978-0-441-0".toList ≠ [] ∧
      (∀ c ∈ "978-0-441-0".toList, ('0' ≤ c ∧ c ≤ '9') ∨ c = '-') ∧
      (∃ c ∈ "978-0-441-0".toList, '0' ≤ c ∧ c ≤ '9')) :=
  ⟨by decide, by decide, by decide, (C13_isValidISBN "978-0-441-0".toList).mp (by decide)⟩

/-- Claim C15. After `addBook title author isbn` the books are the previous books, unchanged
and in the same order, followed by one new available book with exactly these fields, so
the catalogue contains it, whether or not the ISBN was already present; users and history
are unchanged. The operation has no failure outcome. -/
theorem C15_addBook (lib : Library) (title author isbn : Str) :
    (lib.addBook title author isbn).books = lib.books ++ [⟨title, author, isbn, true⟩] ∧
    (⟨title, author, isbn, true⟩ : Book) ∈ (lib.addBook title author isbn).books ∧
    (lib.addBook title author isbn).users = lib.users ∧
    (lib.addBook title author isbn).history = lib.history := by
  refine ⟨rfl, ?_, rfl, rfl⟩
  simp [Library.addBook]

namespace Library

/-- What `borrowBook` does to the history, by outcome. -/
theorem borrowBook_history (lib : Library) (i u : Str) :
    ((lib.borrowBook i u).2 = msgBorrowed ∧
      (lib.borrowBook i u).1.history = lib.history ++ [⟨u, i, "Borrowed"⟩]) ∨
    ((lib.borrowBook i u).2 = msgBorrowFailed ∧
      (lib.borrowBook i u).1.history = lib.history) := by
  unfold borrowBook
  rcases borrowLoop i u lib.users lib.books with ⟨books1, _ | users1⟩
  · exact Or.inr ⟨rfl, rfl⟩
  · exact Or.inl ⟨rfl, rfl⟩

/-- What `returnBook` does to the history, by outcome. -/
theorem returnBook_history (lib : Library) (i u : Str) :
    ((lib.returnBook i u).2 = msgReturned ∧
      (lib.returnBook i u).1.history = lib.history ++ [⟨u, i, "Returned"⟩]) ∨
    ((lib.returnBook i u).2 = msgReturnFailed ∧
      (lib.returnBook i u).1.history = lib.history) := by
  unfold returnBook
  rcases returnLoop i u lib.books lib.users with ⟨users1, _ | books1⟩
  · exact Or.inr ⟨rfl, rfl⟩
  · exact Or.inl ⟨rfl, rfl⟩

end Library

/-- Claim C16. The history is append-only: `addBook`, `registerUser`, `deleteBook` and
`deleteUser` leave it unchanged; `borrowBook` and `returnBook` append exactly one entry
when they print their success line and leave it unchanged otherwise; so for every
operation the history before the call is an initial segment of the history after it,
longer by at most one entry. -/
theorem C16_history_append_only (lib : Library) :
    (∀ t a i, (lib.addBook t a i).history = lib.history) ∧
    (∀ id n, (lib.registerUser id n).history = lib.history) ∧
    (∀ i, (lib.deleteBook i).1.history = lib.history) ∧
    (∀ u, (lib.deleteUser u).1.history = lib.history) ∧
    (∀ i u,
      ((lib.borrowBook i u).2 = Library.msgBorrowed →
        (lib.borrowBook i u).1.history = lib.history ++ [⟨u, i, "Borrowed"⟩]) ∧
      ((lib.borrowBook i u).2 ≠ Library.msgBorrowed →
        (lib.borrowBook i u).1.history = lib.history)) ∧
    (∀ i u,
      ((lib.returnBook i u).2 = Library.msgReturned →
        (lib.returnBook i u).1.history = lib.history ++ [⟨u, i, "Returned"⟩]) ∧
      ((lib.returnBook i u).2 ≠ Library.msgReturned →
        (lib.returnBook i u).1.history = lib.history)) ∧
    (∀ op, ∃ extra, (lib.step op).history = lib.history ++ extra ∧ extra.length ≤ 1) := by
  have hdb : ∀ i, (lib.deleteBook i).1.history = lib.history := by
    intro i; rw [Library.deleteBook_state]
  have hdu : ∀ u, (lib.deleteUser u).1.history = lib.history := by
    intro u; rw [Library.deleteUser_state]
  have hne1 : Library.msgBorrowFailed ≠ Library.msgBorrowed := by decide
  have hne2 : Library.msgReturnFailed ≠ Library.msgReturned := by decide
  refine ⟨fun _ _ _ => rfl, fun _ _ => rfl, hdb, hdu, ?_, ?_, ?_⟩
  · intro i u
    rcases Library.borrowBook_history lib i u with ⟨hm, hh⟩ | ⟨hm, hh⟩
    · exact ⟨fun _ => hh, fun h => absurd hm h⟩
    · exact ⟨fun h => absurd (hm.symm.trans h) hne1, fun _ => hh⟩
  · intro i u
    rcases Library.returnBook_history lib i u with ⟨hm, hh⟩ | ⟨hm, hh⟩
    · exact ⟨fun _ => hh, fun h => absurd hm h⟩
    · exact ⟨fun h => absurd (hm.symm.trans h) hne2, fun _ => hh⟩
  · intro op
    cases op with
    | addBook t a i => exact ⟨[], by simp [Library.step, Library.addBook], by simp⟩
    | registerUser id n => exact ⟨[], by simp [Library.step, Library.registerUser], by simp⟩
    | borrowBook i u =>
      rcases Library.borrowBook_history lib i u with ⟨_, hh⟩ | ⟨_, hh⟩
      · exact ⟨_, hh, by simp⟩
      · exact ⟨[], by simpa [Library.step] using hh, by simp⟩
    | returnBook i u =>
      rcases Library.returnBook_history lib i u with ⟨_, hh⟩ | ⟨_, hh⟩
      · exact ⟨_, hh, by simp⟩
      · exact ⟨[], by simpa [Library.step] using hh, by simp⟩
    | deleteBook i => exact ⟨[], by simpa [Library.step] using hdb i, by simp⟩
    | deleteUser u => exact ⟨[], by simpa [Library.step] using hdu u, by simp⟩

/-- Witness for C16: a successful borrow appends one entry after the existing one, a
failed return appends none. -/
theorem C16_history_append_only_witness :
    ((Library.mk [⟨['D'], ['F'], ['9'], true⟩] [⟨['U'], ['A'], []⟩]
        [⟨['V'], ['8'], "Returned"⟩]).borrowBook ['9'] ['U']).1.history
      = [⟨['V'], ['8'], "Returned"⟩] ++ [⟨['U'], ['9'], "Borrowed"⟩] ∧
    ((Library.mk [⟨['D'], ['F'], ['9'], true⟩] [⟨['U'], ['A'], []⟩]
        [⟨['V'], ['8'], "Returned"⟩]).returnBook ['7'] ['U']).1.history
      = [⟨['V'], ['8'], "Returned"⟩] :=
  ⟨((C16_history_append_only (Library.mk [⟨['D'], ['F'], ['9'], true⟩] [⟨['U'], ['A'], []⟩]
        [⟨['V'], ['8'], "Returned"⟩])).2.2.2.2.1 ['9'] ['U']).1 (by decide),
   ((C16_history_append_only (Library.mk [⟨['D'], ['F'], ['9'], true⟩] [⟨['U'], ['A'], []⟩]
        [⟨['V'], ['8'], "Returned"⟩])).2.2.2.2.2.1 ['7'] ['U']).2 (by decide)⟩

/-- Behaviour behind C17: with two available copies of ISBN 9 and no user W,
`borrowBook` prints the failure line and makes both copies unavailable, not only the
first one. -/
theorem C17_failing_input :
    (Library.mk [⟨['D'], ['F'], ['9'], true⟩, ⟨['E'], ['G'], ['9'], true⟩]
        [⟨['U'], ['A'], []⟩] []).borrowBook ['9'] ['W']
      = (Library.mk [⟨['D'], ['F'], ['9'], false⟩, ⟨['E'], ['G'], ['9'], false⟩]
          [⟨['U'], ['A'], []⟩] [], Library.msgBorrowFailed) := by
  decide

namespace Library

theorem borrowLoop_no_user (i u : Str) (users : List LibraryUser)
    (hus : borrowUsers i u users = none) (books : List Book) :
    borrowLoop i u users books
      = (books.map (fun b => if b.isbn = i then { b with available := false } else b),
         none) := by
  induction books with
  | nil => rfl
  | cons b bs ih =>
    obtain ⟨t, a, isbn, av⟩ := b
    by_cases hb : isbn = i
    · subst hb
      cases av
      · simp only [borrowLoop, Bool.false_eq_true, and_false, if_false, if_true, ih,
          List.map_cons]
      · simp only [borrowLoop, and_self, if_true, hus, ih, List.map_cons, Book.setAvailable]
    · simp only [borrowLoop, hb, false_and, if_false, ih, List.map_cons]

end Library

/-- Claim C18. When no user has userID `u`, `borrowBook i u` prints the failure line and
makes every book with ISBN `i` unavailable (every available copy, not only the first);
books with another ISBN, all titles, authors and ISBNs, the order of the books, the users
and the history are unchanged. -/
theorem C18_borrowBook_no_user (lib : Library) (i u : Str)
    (hno : ∀ x ∈ lib.users, x.userID ≠ u) :
    lib.borrowBook i u
      = ({ lib with books :=
            lib.books.map (fun b => if b.isbn = i then { b with available := false } else b) },
         Library.msgBorrowFailed) ∧
    (∀ b ∈ (lib.borrowBook i u).1.books, b.isbn = i → b.available = false) := by
  have hus := Library.borrowUsers_none i u lib.users hno
  have key : lib.borrowBook i u
      = ({ lib with books :=
            lib.books.map (fun b => if b.isbn = i then { b with available := false } else b) },
         Library.msgBorrowFailed) := by
    simp only [Library.borrowBook, Library.borrowLoop_no_user i u lib.users hus lib.books]
  refine ⟨key, ?_⟩
  rw [key]
  intro b hb hbi
  obtain ⟨b0, _, hb0⟩ := List.mem_map.mp hb
  by_cases h0 : b0.isbn = i
  · rw [if_pos h0] at hb0
    rw [← hb0]
  · rw [if_neg h0] at hb0
    rw [hb0] at h0
    exact absurd hbi h0

/-- Witness for C18: three books, two of them available copies of ISBN 9; the userID W is
not registered. -/
theorem C18_borrowBook_no_user_witness :
    (Library.mk [⟨['D'], ['F'], ['9'], true⟩, ⟨['X'], ['Y'], ['8'], true⟩,
        ⟨['E'], ['G'], ['9'], true⟩] [⟨['U'], ['A'], []⟩] []).borrowBook ['9'] ['W']
      = (Library.mk [⟨['D'], ['F'], ['9'], false⟩, ⟨['X'], ['Y'], ['8'], true⟩,
          ⟨['E'], ['G'], ['9'], false⟩] [⟨['U'], ['A'], []⟩] [], Library.msgBorrowFailed) :=
  (C18_borrowBook_no_user (Library.mk [⟨['D'], ['F'], ['9'], true⟩, ⟨['X'], ['Y'], ['8'], true⟩,
        ⟨['E'], ['G'], ['9'], true⟩] [⟨['U'], ['A'], []⟩] []) ['9'] ['W'] (by decide)).1

namespace Library

theorem borrowUsers_ids (i u : Str) (users : List LibraryUser) :
    ∀ users1, borrowUsers i u users = some users1 →
      users1.map (fun x => (x.userID, x.name)) = users.map (fun x => (x.userID, x.name)) := by
  induction users with
  | nil => intro users1 h; simp [borrowUsers] at h
  | cons x xs ih =>
    intro users1 h
    by_cases hx : x.userID = u
    · simp only [borrowUsers, hx, if_true, Option.some.injEq] at h
      subst h
      simp [LibraryUser.borrowBook, hx]
    · simp only [borrowUsers, hx, if_false, Option.map_eq_some'] at h
      obtain ⟨us1, hus1, rfl⟩ := h
      simp [ih us1 hus1]

theorem borrowLoop_fields (i u : Str) (users : List LibraryUser) (books : List Book) :
    (borrowLoop i u users books).1.map (fun b => (b.title, b.author, b.isbn))
        = books.map (fun b => (b.title, b.author, b.isbn)) ∧
    ∀ users1, (borrowLoop i u users books).2 = some users1 →
      users1.map (fun x => (x.userID, x.name)) = users.map (fun x => (x.userID, x.name)) := by
  induction books with
  | nil => exact ⟨rfl, fun _ h => by simp [borrowLoop] at h⟩
  | cons b bs ih =>
    by_cases hb : b.isbn = i ∧ b.available = true
    · rcases hus : borrowUsers i u users with _ | us1
      · simp only [borrowLoop, hb, and_self, if_true, hus, List.map_cons, ih.1,
          Book.setAvailable, true_and]
        exact ih.2
      · simp only [borrowLoop, hb, and_self, if_true, hus, List.map_cons,
          Book.setAvailable, Option.some.injEq, true_and]
        intro users1 h
        subst h
        exact borrowUsers_ids i u users us1 hus
    · simp only [borrowLoop, hb, if_false, List.map_cons, ih.1, true_and]
      exact ih.2

theorem returnBooks_fields (i : Str) (books : List Book) :
    ∀ books1, returnBooks i books = some books1 →
      books1.map (fun b => (b.title, b.author, b.isbn))
        = books.map (fun b => (b.title, b.author, b.isbn)) := by
  induction books with
  | nil => intro books1 h; simp [returnBooks] at h
  | cons b bs ih =>
    intro books1 h
    by_cases hb : b.isbn = i
    · simp only [returnBooks, hb, if_true, Option.some.injEq] at h
      subst h
      simp [Book.setAvailable, hb]
    · simp only [returnBooks, hb, if_false, Option.map_eq_some'] at h
      obtain ⟨bs1, hbs1, rfl⟩ := h
      simp [ih bs1 hbs1]

theorem returnLoop_ids (i u : Str) (books : List Book) (users : List LibraryUser) :
    (returnLoop i u books users).1.map (fun x => (x.userID, x.name))
        = users.map (fun x => (x.userID, x.name)) ∧
    ∀ books1, (returnLoop i u books users).2 = some books1 →
      books1.map (fun b => (b.title, b.author, b.isbn))
        = books.map (fun b => (b.title, b.author, b.isbn)) := by
  induction users with
  | nil => exact ⟨rfl, fun _ h => by simp [returnLoop] at h⟩
  | cons x xs ih =>
    by_cases hx : x.userID = u
    · rcases hbs : returnBooks i books with _ | bs1
      · simp only [returnLoop, hx, if_true, hbs, List.map_cons, ih.1,
          LibraryUser.returnBook, true_and]
        exact ih.2
      · simp only [returnLoop, hx, if_true, hbs, List.map_cons,
          LibraryUser.returnBook, Option.some.injEq, true_and]
        intro books1 h
        subst h
        exact returnBooks_fields i books bs1 hbs
    · simp only [returnLoop, hx, if_false, List.map_cons, ih.1, true_and]
      exact ih.2

end Library

/-- Claim C19. Whatever their arguments and outcome, `borrowBook` and `returnBook` keep the
sequence of (title, author, ISBN) of the books and the sequence of (userID, name) of the
users: no book or user is added, removed or reordered and none of these fields changes. -/
theorem C19_borrow_return_frame (lib : Library) (i u : Str) :
    ((lib.borrowBook i u).1.books.map (fun b => (b.title, b.author, b.isbn))
        = lib.books.map (fun b => (b.title, b.author, b.isbn)) ∧
      (lib.borrowBook i u).1.users.map (fun x => (x.userID, x.name))
        = lib.users.map (fun x => (x.userID, x.name))) ∧
    ((lib.returnBook i u).1.books.map (fun b => (b.title, b.author, b.isbn))
        = lib.books.map (fun b => (b.title, b.author, b.isbn)) ∧
      (lib.returnBook i u).1.users.map (fun x => (x.userID, x.name))
        = lib.users.map (fun x => (x.userID, x.name))) := by
  constructor
  · have h := Library.borrowLoop_fields i u lib.users lib.books
    unfold Library.borrowBook
    rcases hl : Library.borrowLoop i u lib.users lib.books with ⟨books1, _ | users1⟩
    · rw [hl] at h
      exact ⟨h.1, rfl⟩
    · rw [hl] at h
      exact ⟨h.1, h.2 users1 rfl⟩
  · have h := Library.returnLoop_ids i u lib.books lib.users
    unfold Library.returnBook
    rcases hl : Library.returnLoop i u lib.books lib.users with ⟨users1, _ | books1⟩
    · rw [hl] at h
      exact ⟨rfl, h.1⟩
    · rw [hl] at h
      exact ⟨h.2 books1 rfl, h.1⟩

/-- Claim C20. The operation `returnBook` re-enables the first book with the given ISBN,
which need not be the copy that `borrowBook` disabled: in a catalogue with two copies of
ISBN 9, the first unavailable and the second available, and a user U, the borrow and
the return by U both succeed; the borrow disables the second copy, the return enables
the first, and the availability flags end up different from what they were. -/
theorem C20_return_enables_first_copy :
    ∃ (lib : Library) (i u : Str) (b1 b2 : Book),
      lib.books = [b1, b2] ∧ b1.isbn = i ∧ b2.isbn = i ∧
      (∃ x ∈ lib.users, x.userID = u) ∧
      (lib.borrowBook i u).2 = Library.msgBorrowed ∧
      ((lib.borrowBook i u).1.returnBook i u).2 = Library.msgReturned ∧
      lib.books.map Book.available = [false, true] ∧
      (lib.borrowBook i u).1.books.map Book.available = [false, false] ∧
      ((lib.borrowBook i u).1.returnBook i u).1.books.map Book.available = [true, false] ∧
      ((lib.borrowBook i u).1.returnBook i u).1.books.map Book.available
        ≠ lib.books.map Book.available :=
  ⟨Library.mk [⟨['D'], ['F'], ['9'], false⟩, ⟨['D'], ['F'], ['9'], true⟩]
      [⟨['U'], ['A'], []⟩] [],
    ['9'], ['U'], ⟨['D'], ['F'], ['9'], false⟩, ⟨['D'], ['F'], ['9'], true⟩, by decide⟩
